import Mathlib

/-!
# ModernThreadPool: a verification development

Shallow embedding of `modern_thread_pool.hpp` / `modern_thread_pool.cpp`.

* `std::unordered_map<TaskType, V>` is an association list with `find`,
  `index` (the C++ `operator[]`, which value-initialises a missing key) and
  `assign` (a write through the reference `operator[]` returned).
* `std::queue<std::function<void()>>` is a list: `emplace` appends at the
  tail, `pop` removes the head.  The only closures ever pushed are the
  lambdas `[task](){ (*task)(); }` built by `submit`, so a queue element is
  the `std::packaged_task` it captures.
* A `std::future` is the index of its shared state in a heap of shared
  states.
* A `std::thread` running `workerThread(type)` is a record of the lane it is
  bound to and whether the thread function has returned.  One scheduling
  step of a thread is one iteration of the `while (true)` loop; the critical
  section of an iteration is atomic.
* Callables are pure: `f args` either returns a value or raises an error.
* The mutexes and conditions carry no data.  In the pool model a thread
  blocked in `wait` is a thread whose step is not enabled; it is enabled
  again as soon as its predicate holds (a wake-up is never lost).  The order
  in which `submit` and `workerThread` look up, lock and release them is the
  subject of the section on the lock discipline.
-/

/-- `using TaskType = std::string`. -/
abbrev TaskType := String

/-- The shared state of a `std::future`: empty, a value, or an exception. -/
abbrev SharedState (ε α : Type) := Option (Except ε α)

/-- A `std::packaged_task<return_type()>` held through a `shared_ptr`: the
shared state it owns and the bound callable `std::bind(f, args...)`. -/
structure PackagedTask (ε α : Type) where
  shared : Nat
  fn : Unit → Except ε α

/-- A `std::thread` started on `&ModernThreadPool::workerThread, this, type`. -/
structure Thread where
  type : TaskType
  finished : Bool
deriving DecidableEq, Repr

/-- The data members of `class ModernThreadPool`, together with the heap of
shared states of the futures handed out by `submit`. -/
structure ModernThreadPool (ε α : Type) where
  generalWorkers : List Thread
  dedicatedWorkers : List (TaskType × Thread)
  taskQueues : List (TaskType × List (PackagedTask ε α))
  stop : Bool
  futures : List (SharedState ε α)

namespace ModernThreadPool

variable {ε α β V : Type}

/-- `static constexpr const char* GENERAL_TASK = "general"`. -/
def GENERAL_TASK : TaskType := "general"

/-- `std::unordered_map::find`: the value stored under `k`, if any. -/
def find : List (TaskType × V) → TaskType → Option V
  | [], _ => none
  | (k', v) :: m, k => if k' = k then some v else find m k

/-- `std::unordered_map::operator[]`: the value under `k`, inserting the
value-initialised `dflt` when the key is missing. -/
def index (dflt : V) (m : List (TaskType × V)) (k : TaskType) : V × List (TaskType × V) :=
  match find m k with
  | some v => (v, m)
  | none => (dflt, m ++ [(k, dflt)])

/-- A write through the reference returned by `operator[]`. -/
def assign (m : List (TaskType × V)) (k : TaskType) (v : V) : List (TaskType × V) :=
  m.map (fun e => if e.1 = k then (e.1, v) else e)

/-- The pending queue of lane `type` (an absent lane has no pending task). -/
def queueOf (s : ModernThreadPool ε α) (type : TaskType) : List (PackagedTask ε α) :=
  (find s.taskQueues type).getD []

/-- `ModernThreadPool::ModernThreadPool(size_t generalThreads)`. -/
def construct (generalThreads : Nat) : ModernThreadPool ε α :=
  { generalWorkers := List.replicate generalThreads ⟨GENERAL_TASK, false⟩
    dedicatedWorkers := []
    taskQueues := []
    stop := false
    futures := [] }

/-- `ModernThreadPool::getInstance`: `std::call_once` constructs the pool on
the first call only; `instance_` is the static `unique_ptr`.  Returns the
pool referred to and the new value of `instance_`. -/
def getInstance (generalThreads : Nat) (instance_ : Option (ModernThreadPool ε α)) :
    ModernThreadPool ε α × Option (ModernThreadPool ε α) :=
  match instance_ with
  | none => (construct generalThreads, some (construct generalThreads))
  | some p => (p, some p)

/-- `getGeneralThreadCount`. -/
def getGeneralThreadCount (s : ModernThreadPool ε α) : Nat := s.generalWorkers.length

/-- `getDedicatedThreadCount`. -/
def getDedicatedThreadCount (s : ModernThreadPool ε α) : Nat := s.dedicatedWorkers.length

/-- `ModernThreadPool::addDedicatedThread`. -/
def addDedicatedThread (type : TaskType) (s : ModernThreadPool ε α) : ModernThreadPool ε α :=
  if (find s.dedicatedWorkers type).isNone then
    { s with dedicatedWorkers := s.dedicatedWorkers ++ [(type, ⟨type, false⟩)] }
  else s

/-- `ModernThreadPool::submit`: returns the future (the index of the fresh
shared state) and the pool after the push. -/
def submit (type : TaskType) (f : β → Except ε α) (args : β) (s : ModernThreadPool ε α) :
    Nat × ModernThreadPool ε α :=
  let task : PackagedTask ε α := ⟨s.futures.length, fun _ => f args⟩
  let res := task.shared
  let lane := index [] s.taskQueues type
  (res, { s with futures := s.futures ++ [none]
                 taskQueues := assign lane.2 type (lane.1 ++ [task]) })

/-- `std::future::get` on a ready future; `none` while the shared state is
still empty (the caller would block). -/
def get (s : ModernThreadPool ε α) (res : Nat) : SharedState ε α :=
  s.futures[res]?.join

end ModernThreadPool

/-- `std::packaged_task::operator()`: runs the bound callable and stores its
value or its exception in the shared state.  The flag is `true` when the call
itself throws `std::future_error` (no shared state, or already satisfied). -/
def PackagedTask.invoke {ε α : Type} (t : PackagedTask ε α) (fs : List (SharedState ε α)) :
    Bool × List (SharedState ε α) :=
  match fs[t.shared]? with
  | some none => (false, fs.set t.shared (some (t.fn ())))
  | _ => (true, fs)

namespace ModernThreadPool

variable {ε α β V : Type}

/-- What one iteration of the loop of `workerThread` does. -/
inductive Iteration (ε α : Type) where
  /-- The wait predicate is false: the thread stays blocked on the condition. -/
  | waiting (s : ModernThreadPool ε α)
  /-- `stop && taskQueues[type].empty()`: the thread function returns. -/
  | returned (s : ModernThreadPool ε α)
  /-- A task was dequeued and `task()` completed normally. -/
  | ran (t : PackagedTask ε α) (s : ModernThreadPool ε α)
  /-- An exception left `task()`, hence the thread function: `std::terminate`. -/
  | terminate

/-- One iteration of `while (true)` in `ModernThreadPool::workerThread(type)`.
`taskQueues` is declared as a `std::queue`, whose `pop()` removes the front
element; `top()` on line 57 is read as the element that `pop()` removes. -/
def workerThread (type : TaskType) (s : ModernThreadPool ε α) : Iteration ε α :=
  let lane := index [] s.taskQueues type
  let s1 := { s with taskQueues := lane.2 }
  match lane.1 with
  | [] => if s.stop then .returned s1 else .waiting s1
  | t :: rest =>
    match t.invoke s.futures with
    | (false, fs) => .ran t { s with taskQueues := assign lane.2 type rest, futures := fs }
    | (true, _) => .terminate

/-- The threads of the pool: an index into `generalWorkers` or a key of
`dedicatedWorkers`. -/
inductive ThreadId where
  | general (i : Nat)
  | dedicated (type : TaskType)
deriving DecidableEq, Repr

/-- The lane the thread of an id is started on: the constructor starts
every general worker on `GENERAL_TASK`, `addDedicatedThread(type)` starts the
worker it stores under `type` on `type`. -/
def ThreadId.lane : ThreadId → TaskType
  | .general _ => GENERAL_TASK
  | .dedicated type => type

/-- The thread named by an id. -/
def thread? (s : ModernThreadPool ε α) : ThreadId → Option Thread
  | .general i => s.generalWorkers[i]?
  | .dedicated type => find s.dedicatedWorkers type

/-- Records that the thread function of thread `id` has returned. -/
def markFinished (s : ModernThreadPool ε α) : ThreadId → ModernThreadPool ε α
  | .general i =>
    match s.generalWorkers[i]? with
    | some th => { s with generalWorkers := s.generalWorkers.set i { th with finished := true } }
    | none => s
  | .dedicated type =>
    let done := fun (e : TaskType × Thread) =>
      if e.1 = type then (e.1, { e.2 with finished := true }) else e
    { s with dedicatedWorkers := s.dedicatedWorkers.map done }

/-- What a step of the pool shows: a task taken from a lane and run, a
thread leaving its loop, a task pushed by `submit`, or nothing. -/
inductive Label (ε α : Type) where
  | ran (id : ThreadId) (type : TaskType) (t : PackagedTask ε α)
  | returned (id : ThreadId) (type : TaskType)
  | pushed (type : TaskType) (t : PackagedTask ε α)
  | silent

/-- One scheduling step of thread `id`: `none` when the thread does not
exist, has returned, stays blocked in `wait`, or the process terminates. -/
def step (id : ThreadId) (s : ModernThreadPool ε α) : Option (Label ε α × ModernThreadPool ε α) :=
  match thread? s id with
  | none => none
  | some th =>
    if th.finished then none
    else
      match workerThread th.type s with
      | .waiting _ => none
      | .returned s1 => some (.returned id th.type, markFinished s1 id)
      | .ran t s1 => some (.ran id th.type t, s1)
      | .terminate => none

/-- The first block of the destructor: `stop = true` under `stopMutex`
(the `notify_all` that follows wakes the waiting threads). -/
def setStop (s : ModernThreadPool ε α) : ModernThreadPool ε α := { s with stop := true }

/-- The steps of a running pool: the public operations called by client
threads, one iteration of a pool thread, and the start of the destructor. -/
inductive Action (ε α : Type) where
  | addDedicatedThread (type : TaskType)
  | submit (type : TaskType) (fn : Unit → Except ε α)
  | schedule (id : ThreadId)
  | setStop

/-- The effect of one action; `none` when the action cannot happen. -/
def exec : Action ε α → ModernThreadPool ε α → Option (Label ε α × ModernThreadPool ε α)
  | .addDedicatedThread type, s => some (.silent, addDedicatedThread type s)
  | .submit type fn, s =>
    some (.pushed type ⟨(submit type fn () s).1, fn⟩, (submit type fn () s).2)
  | .schedule id, s => step id s
  | .setStop, s => some (.silent, setStop s)

/-- An interleaving of client calls and pool threads, in order. -/
def run : List (Action ε α) → ModernThreadPool ε α →
    Option (List (Label ε α) × ModernThreadPool ε α)
  | [], s => some ([], s)
  | a :: acts, s =>
    match exec a s with
    | none => none
    | some (l, s1) =>
      match run acts s1 with
      | none => none
      | some (ls, s2) => some (l :: ls, s2)

/-- The tasks taken from lane `type`, in the order they were dequeued. -/
def dequeued (type : TaskType) : List (Label ε α) → List (PackagedTask ε α)
  | [] => []
  | .ran _ ty t :: ls => if ty = type then t :: dequeued type ls else dequeued type ls
  | _ :: ls => dequeued type ls

/-- The tasks pushed on lane `type`, in the order they were submitted. -/
def pushed (type : TaskType) : List (Label ε α) → List (PackagedTask ε α)
  | [] => []
  | .pushed ty t :: ls => if ty = type then t :: pushed type ls else pushed type ls
  | _ :: ls => pushed type ls

/-- Every thread of the pool has returned from `workerThread`. -/
def allFinished (s : ModernThreadPool ε α) : Bool :=
  s.generalWorkers.all (fun th => th.finished) && s.dedicatedWorkers.all (fun e => e.2.finished)

/-- The thread function of thread `id` has returned (an id without a
thread has nothing to wait for). -/
def returned (s : ModernThreadPool ε α) (id : ThreadId) : Bool :=
  match thread? s id with
  | none => true
  | some th => th.finished

/-- `worker.join()`: the caller waits until the thread function has
returned; the joined thread keeps iterating meanwhile (at most `fuel`
iterations are followed). -/
def join : Nat → ThreadId → ModernThreadPool ε α → Option (List (Label ε α) × ModernThreadPool ε α)
  | 0, id, s => if returned s id then some ([], s) else none
  | fuel + 1, id, s =>
    if returned s id then some ([], s)
    else
      match step id s with
      | none => none
      | some (l, s1) =>
        match join fuel id s1 with
        | none => none
        | some (ls, s2) => some (l :: ls, s2)

/-- The two `for` loops of the destructor: join the threads in order. -/
def joinAll : Nat → List ThreadId → ModernThreadPool ε α →
    Option (List (Label ε α) × ModernThreadPool ε α)
  | _, [], s => some ([], s)
  | fuel, id :: ids, s =>
    match join fuel id s with
    | none => none
    | some (ls, s1) =>
      match joinAll fuel ids s1 with
      | none => none
      | some (ls2, s2) => some (ls ++ ls2, s2)

/-- The ids of all threads of the pool, general workers first. -/
def threadIds (s : ModernThreadPool ε α) : List ThreadId :=
  (List.range s.generalWorkers.length).map ThreadId.general ++
    s.dedicatedWorkers.map (fun e => ThreadId.dedicated e.1)

/-- `ModernThreadPool::~ModernThreadPool`: returns once every thread is
joined; `none` when `fuel` iterations per thread do not suffice. -/
def destruct (fuel : Nat) (s : ModernThreadPool ε α) :
    Option (List (Label ε α) × ModernThreadPool ε α) :=
  joinAll fuel (threadIds s) (setStop s)

/-- The pending tasks are consistent with the heap of shared states: every
queued task owns an empty shared state, and no two queued tasks own the
same one. -/
def Consistent (s : ModernThreadPool ε α) : Prop :=
  (∀ L t, t ∈ queueOf s L → s.futures[t.shared]? = some none) ∧
  (∀ L, ((queueOf s L).map (fun t => t.shared)).Nodup) ∧
  (∀ L L' t t', L ≠ L' → t ∈ queueOf s L → t' ∈ queueOf s L' → t.shared ≠ t'.shared)

/-- What a program does with the process-wide pool: ask for the instance,
or act on the instance it obtained. -/
inductive Call (ε α : Type) where
  | getInstance (generalThreads : Nat)
  | act (a : Action ε α)

/-- The effect of one call on the static `instance_`. -/
def call : Call ε α → Option (ModernThreadPool ε α) → Option (Option (ModernThreadPool ε α))
  | .getInstance n, inst => some (getInstance n inst).2
  | .act a, some p => (exec a p).map (fun r => some r.2)
  | .act _, none => none

/-- A sequence of calls, in order. -/
def calls : List (Call ε α) → Option (ModernThreadPool ε α) →
    Option (Option (ModernThreadPool ε α))
  | [], inst => some inst
  | c :: cs, inst => (call c inst).bind (calls cs)

/-- A lane with priorities attached by the caller, as `main` writes its
submissions: `submit` has no priority parameter, so only the callable of
each pair reaches the queue. -/
def submitAll (type : TaskType) :
    List (Int × (Unit → Except ε α)) → ModernThreadPool ε α → ModernThreadPool ε α
  | [], s => s
  | (_, fn) :: rest, s => submitAll type rest (submit type fn () s).2

/-- Every thread serves the lane it was started for: the general workers
the lane `GENERAL_TASK`, the dedicated worker stored under a key the lane of
that key; and a key has one dedicated worker. -/
def Bound (s : ModernThreadPool ε α) : Prop :=
  (∀ th ∈ s.generalWorkers, th.type = GENERAL_TASK) ∧
  (∀ e ∈ s.dedicatedWorkers, e.2.type = e.1) ∧
  (s.dedicatedWorkers.map Prod.fst).Nodup

/-- The types passed to `addDedicatedThread` in a sequence of actions. -/
def dedicatedTypes : List (Action ε α) → List TaskType
  | [] => []
  | .addDedicatedThread type :: acts => type :: dedicatedTypes acts
  | _ :: acts => dedicatedTypes acts

/-- The pool an iteration of a worker leaves behind (none after
`std::terminate`). -/
def Iteration.pool? : Iteration ε α → Option (ModernThreadPool ε α)
  | .waiting s => some s
  | .returned s => some s
  | .ran _ s => some s
  | .terminate => none

/-- A callable that returns the priority it was submitted with. -/
def priorityTask (p : Int) : Unit → Except String Int := fun _ => .ok p

/-- Three submissions to lane "x" written with priorities 1, 5, 1. -/
def threeTasks : List (Int × (Unit → Except String Int)) :=
  [(1, priorityTask 1), (5, priorityTask 5), (1, priorityTask 1)]

/-- The scenario of the priority test: no general worker, three tasks
submitted to lane "x" with priorities 1, 5, 1, then `addDedicatedThread("x")`. -/
def priorityScenario : ModernThreadPool String Int :=
  addDedicatedThread "x" (submitAll "x" threeTasks (construct 0))

/-- A pool with two general workers and three tasks pending in lane "x",
for which `addDedicatedThread` was never called. -/
def unservedLane : ModernThreadPool String Int :=
  submitAll "x" threeTasks (construct 2)

/-- A pool with one general worker and three tasks pending in the general
lane. -/
def servedLane : ModernThreadPool String Int :=
  submitAll GENERAL_TASK threeTasks (construct 1)

/-- An interleaving on a pool with one general worker: two pushes, an
iteration of the worker, a third push, two more iterations. -/
def fifoActions : List (Action String Int) :=
  [.submit GENERAL_TASK (priorityTask 1), .submit GENERAL_TASK (priorityTask 5),
   .schedule (.general 0), .submit GENERAL_TASK (priorityTask 1),
   .schedule (.general 0), .schedule (.general 0)]

/-- What `fifoActions` shows and the pool it leaves. -/
def fifoRun : List (Label String Int) × ModernThreadPool String Int :=
  (run fifoActions (construct 1)).getD ([], construct 1)

/-- The calls of `main` up to its first submissions, with the request for
"logger" repeated: the dedicated threads, then one task each for "logger"
and "general". -/
def mainActions : List (Action String Int) :=
  [.addDedicatedThread "logger", .addDedicatedThread "io", .addDedicatedThread "network",
   .addDedicatedThread "logger",
   .submit "logger" (priorityTask 10), .submit GENERAL_TASK (priorityTask 0)]

/-- What `mainActions` shows and the pool it leaves, from `getInstance(2)`. -/
def mainRun : List (Label String Int) × ModernThreadPool String Int :=
  (run mainActions (construct 2)).getD ([], construct 2)

/-- One iteration of the worker of "logger" on the pool of `mainRun`. -/
def loggerStep : Label String Int × ModernThreadPool String Int :=
  (step (.dedicated "logger") mainRun.2).getD (.silent, mainRun.2)

/-- Calls made after a first `getInstance(2)`: operations on the pool, an
iteration of a general worker, and `getInstance` again with other counts. -/
def laterCalls : List (Call String Int) :=
  [.getInstance 7, .act (.addDedicatedThread "logger"),
   .act (.submit GENERAL_TASK (priorityTask 3)), .act (.schedule (.general 1)),
   .getInstance 0]

/-- The static `instance_` after `laterCalls`. -/
def laterInstance : Option (ModernThreadPool String Int) :=
  (calls laterCalls (getInstance 2 none).2).getD none

/-- The destructor on `servedLane`: what it shows and the pool it leaves. -/
def servedRun : List (Label String Int) × ModernThreadPool String Int :=
  (destruct 4 servedLane).getD ([], servedLane)

/-- A callable that throws. -/
def failingTask : Unit → Except String Int := fun _ => .error "boom"

/-- A pool with one general worker after `submit("general", failingTask)`. -/
def failingPool : ModernThreadPool String Int :=
  (submit GENERAL_TASK failingTask () (construct 1)).2

/-- One iteration of the general worker on `failingPool`. -/
def failingRun : List (Label String Int) × ModernThreadPool String Int :=
  (run [.schedule (.general 0)] failingPool).getD ([], failingPool)

/-- Three iterations of the general worker on `servedLane`, with `stop`
clear: what they show and the pool they leave. -/
def drainRun : List (Label String Int) × ModernThreadPool String Int :=
  (run (List.replicate 3 (.schedule (.general 0))) servedLane).getD ([], servedLane)

/-! ## Lock discipline

The synchronisation of `submit` and `workerThread`, statement by statement,
as the sequence of accesses one thread performs. -/

/-- An access performed by a thread. -/
inductive Event where
  /-- `queueMutexes[type]`. -/
  | lookupMutex (type : TaskType)
  /-- Acquiring the mutex of a lane. -/
  | lock (type : TaskType)
  /-- Releasing the mutex of a lane. -/
  | unlock (type : TaskType)
  /-- `conditions[type]`. -/
  | lookupCondition (type : TaskType)
  /-- `taskQueues[type]`. -/
  | lookupQueue (type : TaskType)
  /-- `empty()` or `top()` on the queue of a lane. -/
  | readQueue (type : TaskType)
  /-- `emplace()` or `pop()` on the queue of a lane. -/
  | writeQueue (type : TaskType)
  /-- A read of the atomic `stop`. -/
  | readStop
  /-- `notify_one()` on the condition of a lane. -/
  | notify (type : TaskType)
  /-- The call `task()`. -/
  | runTask (type : TaskType)
deriving DecidableEq, Repr

/-- The accesses of `submit(type, ...)`, lines 95 to 102 of the header. -/
def submitEvents (type : TaskType) : List Event :=
  [ .lookupMutex type, .lock type,          -- lock_guard lock(queueMutexes[type])
    .lookupQueue type, .writeQueue type,    -- taskQueues[type].emplace(...)
    .unlock type,                           -- end of the block
    .lookupCondition type, .notify type ]   -- conditions[type].notify_one()

/-- One evaluation of the wait predicate `stop || !taskQueues[type].empty()`
when `stop` reads `stopped`. -/
def predicateEvents (type : TaskType) (stopped : Bool) : List Event :=
  if stopped then [.readStop] else [.readStop, .lookupQueue type, .readQueue type]

/-- `conditions[type].wait(lock, pred)`: the predicate is false `blocked`
times (each time the mutex is released while blocked and reacquired on
wake-up), then true with `stop` reading `stopped`. -/
def waitEvents (type : TaskType) : Nat → Bool → List Event
  | 0, stopped => predicateEvents type stopped
  | blocked + 1, stopped =>
    predicateEvents type false ++ [.unlock type, .lock type] ++ waitEvents type blocked stopped

/-- The accesses of one iteration of `workerThread(type)`, lines 44 to 61:
`stopped1` is `stop` as the last predicate evaluation reads it, `stopped2`
as line 52 reads it, `empty` what `empty()` answers on line 52. -/
def workerEvents (type : TaskType) (blocked : Nat) (stopped1 stopped2 empty : Bool) :
    List Event :=
  [.lookupMutex type, .lock type, .lookupCondition type] ++   -- lines 47, 48
  waitEvents type blocked stopped1 ++
  (if stopped2 then [.readStop, .lookupQueue type, .readQueue type] else [.readStop]) ++
  (if stopped2 && empty then [.unlock type]                  -- return
   else [ .lookupQueue type, .readQueue type,                -- top()
          .lookupQueue type, .writeQueue type,               -- pop()
          .unlock type,                                      -- end of the block
          .runTask type ])                                   -- task()

/-- The mutexes a thread holds after an access. -/
def held (hs : List TaskType) : Event → List TaskType
  | .lock type => type :: hs
  | .unlock type => hs.erase type
  | _ => hs

/-- The discipline on the pending queues: the queue of a lane is looked up,
read and written only while the thread holds the mutex of that lane, and a
task body runs only while the thread holds no mutex. -/
def queueGuarded (hs : List TaskType) : Event → Bool
  | .lookupQueue type => decide (type ∈ hs)
  | .readQueue type => decide (type ∈ hs)
  | .writeQueue type => decide (type ∈ hs)
  | .runTask _ => hs.isEmpty
  | _ => true

/-- The discipline with the lookups of the mutex and of the condition of
the lane included. -/
def laneGuarded (hs : List TaskType) : Event → Bool
  | .lookupMutex type => decide (type ∈ hs)
  | .lookupCondition type => decide (type ∈ hs)
  | e => queueGuarded hs e

/-- The discipline on the pending queues with the lookup of the condition
of the lane included (the lookup of the mutex left out). -/
def conditionGuarded (hs : List TaskType) : Event → Bool
  | .lookupCondition type => decide (type ∈ hs)
  | e => queueGuarded hs e

/-- Checks every access of a thread against a discipline, following the
mutexes the thread holds. -/
def respects (ok : List TaskType → Event → Bool) : List TaskType → List Event → Bool
  | _, [] => true
  | hs, e :: es => ok hs e && respects ok (held hs e) es

end ModernThreadPool

namespace ModernThreadPool

variable {ε α β V : Type}

/-! ## The association lists -/

theorem find_append (m m' : List (TaskType × V)) (k : TaskType) :
    find (m ++ m') k = match find m k with
      | some v => some v
      | none => find m' k := by
  induction m with
  | nil => simp [find]
  | cons e m ih =>
    obtain ⟨k', v⟩ := e
    by_cases h : k' = k
    · simp [find, h]
    · simp [find, h, ih]

theorem find_map (m : List (TaskType × V)) (k k' : TaskType) (g : V → V) :
    find (m.map (fun e => if e.1 = k then (e.1, g e.2) else e)) k' =
      if k' = k then (find m k).map g else find m k' := by
  induction m with
  | nil => simp [find]
  | cons e m ih =>
    obtain ⟨k0, v0⟩ := e
    show find ((if k0 = k then (k0, g v0) else (k0, v0)) ::
      m.map (fun e => if e.1 = k then (e.1, g e.2) else e)) k' = _
    by_cases h0 : k0 = k
    · rw [if_pos h0]
      by_cases h1 : k' = k
      · have h2 : k0 = k' := h0.trans h1.symm
        simp only [find, if_pos h2, if_pos h1, if_pos h0, Option.map]
      · have h2 : ¬ k0 = k' := fun h => h1 (h.symm.trans h0)
        simp only [find, if_neg h2, if_neg h1, ih]
    · rw [if_neg h0]
      by_cases h1 : k' = k
      · have h2 : ¬ k0 = k' := fun h => h0 (h.trans h1)
        simp only [find, if_neg h2, if_pos h1, if_neg h0, ih]
      · by_cases h2 : k0 = k'
        · simp only [find, if_pos h2, if_neg h1]
        · simp only [find, if_neg h2, if_neg h1, ih]

theorem find_assign (m : List (TaskType × V)) (k k' : TaskType) (v : V) :
    find (assign m k v) k' = if k' = k then (find m k).map (fun _ => v) else find m k' :=
  find_map m k k' (fun _ => v)

theorem index_fst (d : V) (m : List (TaskType × V)) (k : TaskType) :
    (index d m k).1 = (find m k).getD d := by
  unfold index
  cases find m k <;> rfl

theorem find_index (d : V) (m : List (TaskType × V)) (k k' : TaskType) :
    find (index d m k).2 k' = if k' = k then some ((find m k).getD d) else find m k' := by
  unfold index
  cases h : find m k with
  | some v =>
    by_cases h1 : k' = k
    · subst h1; simp [h]
    · simp [h1]
  | none =>
    by_cases h1 : k' = k
    · subst h1; simp [find_append, h, find]
    · have h2 : ¬ k = k' := fun e => h1 e.symm
      simp only [find_append, find, h1, h2, if_false]
      cases find m k' <;> rfl

theorem find_assign_index (d : V) (m : List (TaskType × V)) (k k' : TaskType) (v : V) :
    find (assign (index d m k).2 k v) k' = if k' = k then some v else find m k' := by
  rw [find_assign]
  by_cases h1 : k' = k
  · subst h1; simp [find_index]
  · simp [h1, find_index]


/-! ## The operations, lane by lane -/

theorem queueOf_submit (type L : TaskType) (f : β → Except ε α) (args : β)
    (s : ModernThreadPool ε α) :
    queueOf (submit type f args s).2 L =
      if L = type then queueOf s type ++ [⟨s.futures.length, fun _ => f args⟩]
      else queueOf s L := by
  unfold queueOf submit
  simp only [find_assign_index, index_fst]
  by_cases h : L = type
  · simp [h]
  · simp [h]

theorem queueOf_index (s : ModernThreadPool ε α) (type L : TaskType) :
    queueOf { s with taskQueues := (index [] s.taskQueues type).2 } L = queueOf s L := by
  unfold queueOf
  simp only [find_index]
  by_cases h : L = type
  · subst h; simp
  · simp [h]

theorem markFinished_general (s : ModernThreadPool ε α) (i : Nat) :
    markFinished s (.general i) =
      match s.generalWorkers[i]? with
      | some th => { s with generalWorkers := s.generalWorkers.set i { th with finished := true } }
      | none => s := rfl

theorem queueOf_markFinished (s : ModernThreadPool ε α) (id : ThreadId) (L : TaskType) :
    queueOf (markFinished s id) L = queueOf s L := by
  cases id with
  | general i =>
    rw [markFinished_general]
    cases s.generalWorkers[i]? <;> rfl
  | dedicated type => rfl

theorem thread?_markFinished (s : ModernThreadPool ε α) (id id' : ThreadId) :
    thread? (markFinished s id) id' =
      if id' = id then (thread? s id).map (fun th => { th with finished := true })
      else thread? s id' := by
  cases id with
  | general i =>
    rw [markFinished_general]
    cases id' with
    | general j =>
      cases h : s.generalWorkers[i]? with
      | none =>
        by_cases hij : j = i
        · subst hij; simp [thread?, h]
        · simp [thread?, hij]
      | some th =>
        by_cases hij : j = i
        · subst hij
          have hlt : j < s.generalWorkers.length := by
            rcases Nat.lt_or_ge j s.generalWorkers.length with h1 | h1
            · exact h1
            · rw [List.getElem?_eq_none h1] at h; cases h
          simp [thread?, h, List.getElem?_set, hlt]
        · have hji : ¬ i = j := fun e => hij e.symm
          simp [thread?, hij, List.getElem?_set, hji]
    | dedicated ty =>
      cases s.generalWorkers[i]? <;> simp [thread?]
  | dedicated type =>
    cases id' with
    | general j => simp [thread?, markFinished]
    | dedicated ty =>
      have h := find_map s.dedicatedWorkers type ty (fun th => { th with finished := true })
      by_cases hty : ty = type
      · subst hty
        simpa [thread?, markFinished] using h
      · simpa [thread?, markFinished, hty] using h

/-- What a scheduling step of a thread is, case by case. -/
theorem step_spec {id : ThreadId} {s s1 : ModernThreadPool ε α} {l : Label ε α}
    (h : step id s = some (l, s1)) :
    ∃ th, thread? s id = some th ∧ th.finished = false ∧
      ((l = .returned id th.type ∧ s.stop = true ∧ queueOf s th.type = [] ∧
          s1 = markFinished { s with taskQueues := (index [] s.taskQueues th.type).2 } id) ∨
       (∃ t rest fs, l = .ran id th.type t ∧ queueOf s th.type = t :: rest ∧
          t.invoke s.futures = (false, fs) ∧
          s1 = { s with taskQueues := assign (index [] s.taskQueues th.type).2 th.type rest,
                        futures := fs })) := by
  unfold step at h
  cases hth : thread? s id with
  | none => simp [hth] at h
  | some th =>
    simp only [hth] at h
    cases hfin : th.finished with
    | true => simp [hfin] at h
    | false =>
      simp only [hfin, Bool.false_eq_true, if_false] at h
      refine ⟨th, rfl, hfin, ?_⟩
      have hq : queueOf s th.type = (index [] s.taskQueues th.type).1 := by
        rw [index_fst]; rfl
      unfold workerThread at h
      cases hl : (index [] s.taskQueues th.type).1 with
      | nil =>
        simp only [hl] at h
        cases hs : s.stop with
        | false => simp [hs] at h
        | true =>
          simp only [hs, if_true, Option.some.injEq, Prod.mk.injEq] at h
          exact Or.inl ⟨h.1.symm, rfl, hq.trans hl, h.2.symm⟩
      | cons t rest =>
        simp only [hl] at h
        cases hi : t.invoke s.futures with
        | mk b fs =>
          cases b with
          | true => simp [hi] at h
          | false =>
            simp only [hi, Option.some.injEq, Prod.mk.injEq] at h
            exact Or.inr ⟨t, rest, fs, h.1.symm, hq.trans hl, hi, h.2.symm⟩


/-! ## The threads of the pool -/

theorem find_eq_none_iff (m : List (TaskType × V)) (k : TaskType) :
    find m k = none ↔ k ∉ m.map Prod.fst := by
  induction m with
  | nil => simp [find]
  | cons e m ih =>
    obtain ⟨k0, v0⟩ := e
    by_cases h : k0 = k
    · simp [find, h]
    · have h' : ¬ k = k0 := fun e => h e.symm
      simp [find, h, h', ih]

theorem find_some_mem {m : List (TaskType × V)} {k : TaskType} {v : V}
    (h : find m k = some v) : (k, v) ∈ m := by
  induction m with
  | nil => simp [find] at h
  | cons e m ih =>
    obtain ⟨k0, v0⟩ := e
    by_cases h0 : k0 = k
    · simp only [find, if_pos h0, Option.some.injEq] at h
      subst h0; subst h
      exact List.mem_cons_self _ _
    · simp only [find, if_neg h0] at h
      exact List.mem_cons_of_mem _ (ih h)

theorem map_set_self {A B : Type} (f : A → B) :
    ∀ (l : List A) (i : Nat) (a b : A), l[i]? = some a → f b = f a →
      (l.set i b).map f = l.map f
  | [], _, _, _, h, _ => by simp at h
  | x :: l, 0, a, b, h, hf => by
    simp only [List.getElem?_cons_zero, Option.some.injEq] at h
    subst h
    simp [hf]
  | x :: l, i + 1, a, b, h, hf => by
    simp only [List.getElem?_cons_succ] at h
    simp [map_set_self f l i a b h hf]

/-- The keys and lanes of the dedicated workers. -/
theorem markFinished_dedicated (s : ModernThreadPool ε α) (id : ThreadId) :
    (markFinished s id).dedicatedWorkers.map (fun e => (e.1, e.2.type)) =
      s.dedicatedWorkers.map (fun e => (e.1, e.2.type)) := by
  cases id with
  | general i =>
    rw [markFinished_general]
    cases s.generalWorkers[i]? <;> rfl
  | dedicated type =>
    simp only [markFinished, List.map_map]
    apply List.map_congr_left
    intro e _
    by_cases h : e.1 = type <;> simp [h]

theorem markFinished_general_types (s : ModernThreadPool ε α) (id : ThreadId) :
    (markFinished s id).generalWorkers.map (fun th => th.type) =
      s.generalWorkers.map (fun th => th.type) := by
  cases id with
  | general i =>
    rw [markFinished_general]
    cases h : s.generalWorkers[i]? with
    | none => rfl
    | some th => exact map_set_self _ _ _ th _ h rfl
  | dedicated type => rfl

theorem step_dedicated {id : ThreadId} {s s1 : ModernThreadPool ε α} {l : Label ε α}
    (h : step id s = some (l, s1)) :
    s1.dedicatedWorkers.map (fun e => (e.1, e.2.type)) =
      s.dedicatedWorkers.map (fun e => (e.1, e.2.type)) := by
  obtain ⟨th, _, _, h1 | ⟨t, rest, fs, _, _, _, h1⟩⟩ := step_spec h
  · rw [h1.2.2.2, markFinished_dedicated]
  · rw [h1]

theorem step_general {id : ThreadId} {s s1 : ModernThreadPool ε α} {l : Label ε α}
    (h : step id s = some (l, s1)) :
    s1.generalWorkers.map (fun th => th.type) = s.generalWorkers.map (fun th => th.type) := by
  obtain ⟨th, _, _, h1 | ⟨t, rest, fs, _, _, _, h1⟩⟩ := step_spec h
  · rw [h1.2.2.2, markFinished_general_types]
  · rw [h1]

theorem exec_general {a : Action ε α} {s s1 : ModernThreadPool ε α} {l : Label ε α}
    (h : exec a s = some (l, s1)) :
    s1.generalWorkers.map (fun th => th.type) = s.generalWorkers.map (fun th => th.type) := by
  cases a with
  | addDedicatedThread type =>
    simp only [exec, Option.some.injEq, Prod.mk.injEq] at h
    rw [← h.2]
    unfold addDedicatedThread
    split <;> rfl
  | submit type fn =>
    simp only [exec, Option.some.injEq, Prod.mk.injEq] at h
    rw [← h.2]; rfl
  | schedule id => exact step_general h
  | setStop =>
    simp only [exec, Option.some.injEq, Prod.mk.injEq] at h
    rw [← h.2]; rfl

theorem exec_dedicated {a : Action ε α} {s s1 : ModernThreadPool ε α} {l : Label ε α}
    (h : exec a s = some (l, s1)) :
    s1.dedicatedWorkers.map (fun e => (e.1, e.2.type)) =
      s.dedicatedWorkers.map (fun e => (e.1, e.2.type)) ++
        (dedicatedTypes [a]).filterMap
          (fun T => if T ∈ s.dedicatedWorkers.map Prod.fst then none else some (T, T)) := by
  cases a with
  | addDedicatedThread type =>
    simp only [exec, Option.some.injEq, Prod.mk.injEq] at h
    rw [← h.2]
    unfold addDedicatedThread
    by_cases hk : type ∈ s.dedicatedWorkers.map Prod.fst
    · have hf : ¬ find s.dedicatedWorkers type = none := fun e =>
        (find_eq_none_iff _ _).1 e hk
      have hs : (find s.dedicatedWorkers type).isNone = false := by
        cases hv : find s.dedicatedWorkers type with
        | none => exact absurd hv hf
        | some v => rfl
      simp [hs, dedicatedTypes, hk]
    · have hf : find s.dedicatedWorkers type = none := (find_eq_none_iff _ _).2 hk
      simp only [hf, Option.isNone_none, if_true, List.map_append, List.map_cons, List.map_nil,
        dedicatedTypes, List.filterMap_cons, List.filterMap_nil, if_neg hk]
  | submit type fn =>
    simp only [exec, Option.some.injEq, Prod.mk.injEq] at h
    rw [← h.2]; simp [dedicatedTypes, submit]
  | schedule id => simpa [dedicatedTypes] using step_dedicated h
  | setStop =>
    simp only [exec, Option.some.injEq, Prod.mk.injEq] at h
    rw [← h.2]; simp [dedicatedTypes, setStop]


/-! ## Runs -/

theorem run_cons {a : Action ε α} {acts : List (Action ε α)} {s s' : ModernThreadPool ε α}
    {ls : List (Label ε α)} (h : run (a :: acts) s = some (ls, s')) :
    ∃ l s1 ls', exec a s = some (l, s1) ∧ run acts s1 = some (ls', s') ∧ ls = l :: ls' := by
  unfold run at h
  cases h1 : exec a s with
  | none => simp [h1] at h
  | some r =>
    obtain ⟨l, s1⟩ := r
    simp only [h1] at h
    cases h2 : run acts s1 with
    | none => simp [h2] at h
    | some r2 =>
      obtain ⟨ls', s2⟩ := r2
      simp only [h2, Option.some.injEq, Prod.mk.injEq] at h
      exact ⟨l, s1, ls', rfl, by rw [h2, h.2], h.1.symm⟩

theorem keys_eq (s : ModernThreadPool ε α) :
    s.dedicatedWorkers.map Prod.fst =
      (s.dedicatedWorkers.map (fun e => (e.1, e.2.type))).map Prod.fst := by
  simp [List.map_map]

theorem bound_iff (s : ModernThreadPool ε α) :
    Bound s ↔ (∀ T ∈ s.generalWorkers.map (fun th => th.type), T = GENERAL_TASK) ∧
      (∀ p ∈ s.dedicatedWorkers.map (fun e => (e.1, e.2.type)), p.2 = p.1) ∧
      ((s.dedicatedWorkers.map (fun e => (e.1, e.2.type))).map Prod.fst).Nodup := by
  unfold Bound
  rw [← keys_eq]
  constructor
  · intro h
    refine ⟨fun T hT => ?_, fun p hp => ?_, h.2.2⟩
    · obtain ⟨th, hth, rfl⟩ := List.mem_map.1 hT
      exact h.1 th hth
    · obtain ⟨e, he, rfl⟩ := List.mem_map.1 hp
      exact h.2.1 e he
  · intro h
    exact ⟨fun th hth => h.1 _ (List.mem_map_of_mem _ hth),
      fun e he => h.2.1 _ (List.mem_map_of_mem (fun e => (e.1, e.2.type)) he), h.2.2⟩

theorem exec_keys {a : Action ε α} {s s1 : ModernThreadPool ε α} {l : Label ε α}
    (h : exec a s = some (l, s1)) (T : TaskType) :
    T ∈ s1.dedicatedWorkers.map Prod.fst ↔
      T ∈ s.dedicatedWorkers.map Prod.fst ∨ T ∈ dedicatedTypes [a] := by
  rw [keys_eq s1, exec_dedicated h, List.map_append, ← keys_eq s, List.mem_append]
  cases a with
  | addDedicatedThread type =>
    by_cases hk : type ∈ s.dedicatedWorkers.map Prod.fst
    · simp only [dedicatedTypes, List.filterMap_cons, if_pos hk, List.filterMap_nil,
        List.map_nil, List.mem_singleton, List.not_mem_nil, or_false]
      constructor
      · exact fun h => Or.inl h
      · rintro (h | h)
        · exact h
        · rw [h]; exact hk
    · simp only [dedicatedTypes, List.filterMap_cons, if_neg hk, List.filterMap_nil,
        List.map_cons, List.map_nil]
  | submit type fn => simp [dedicatedTypes]
  | schedule id => simp [dedicatedTypes]
  | setStop => simp [dedicatedTypes]

theorem exec_bound {a : Action ε α} {s s1 : ModernThreadPool ε α} {l : Label ε α}
    (h : exec a s = some (l, s1)) (hb : Bound s) : Bound s1 := by
  rw [bound_iff] at hb ⊢
  rw [exec_general h, exec_dedicated h]
  refine ⟨hb.1, ?_, ?_⟩
  · intro p hp
    rcases List.mem_append.1 hp with hp | hp
    · exact hb.2.1 p hp
    · cases a with
      | addDedicatedThread type =>
        by_cases hk : type ∈ s.dedicatedWorkers.map Prod.fst
        · simp [dedicatedTypes, hk] at hp
        · simp [dedicatedTypes, hk] at hp
          rw [hp]
      | submit type fn => simp [dedicatedTypes] at hp
      | schedule id => simp [dedicatedTypes] at hp
      | setStop => simp [dedicatedTypes] at hp
  · cases a with
    | addDedicatedThread type =>
      by_cases hk : type ∈ s.dedicatedWorkers.map Prod.fst
      · simpa [dedicatedTypes, hk] using hb.2.2
      · have hk' := hk
        rw [keys_eq] at hk'
        simp only [dedicatedTypes, List.filterMap_cons, if_neg hk, List.filterMap_nil,
          List.map_append, List.map_cons, List.map_nil]
        exact List.Nodup.append hb.2.2 (List.nodup_singleton _)
          (by simpa [List.disjoint_singleton] using hk')
    | submit type fn => simpa [dedicatedTypes] using hb.2.2
    | schedule id => simpa [dedicatedTypes] using hb.2.2
    | setStop => simpa [dedicatedTypes] using hb.2.2

theorem dedicatedTypes_cons (a : Action ε α) (acts : List (Action ε α)) :
    dedicatedTypes (a :: acts) = dedicatedTypes [a] ++ dedicatedTypes acts := by
  cases a <;> simp [dedicatedTypes]

theorem run_bound : ∀ (acts : List (Action ε α)) {s s' : ModernThreadPool ε α}
    {ls : List (Label ε α)}, run acts s = some (ls, s') → Bound s → Bound s'
  | [], s, s', ls, h, hb => by
    simp only [run, Option.some.injEq, Prod.mk.injEq] at h
    rw [← h.2]; exact hb
  | a :: acts, s, s', ls, h, hb => by
    obtain ⟨l, s1, ls', h1, h2, _⟩ := run_cons h
    exact run_bound acts h2 (exec_bound h1 hb)

theorem run_keys : ∀ (acts : List (Action ε α)) {s s' : ModernThreadPool ε α}
    {ls : List (Label ε α)}, run acts s = some (ls, s') → ∀ T,
      (T ∈ s'.dedicatedWorkers.map Prod.fst ↔
        T ∈ s.dedicatedWorkers.map Prod.fst ∨ T ∈ dedicatedTypes acts)
  | [], s, s', ls, h, T => by
    simp only [run, Option.some.injEq, Prod.mk.injEq] at h
    rw [← h.2]; simp [dedicatedTypes]
  | a :: acts, s, s', ls, h, T => by
    obtain ⟨l, s1, ls', h1, h2, _⟩ := run_cons h
    rw [run_keys acts h2 T, exec_keys h1 T, dedicatedTypes_cons a acts, List.mem_append, or_assoc]

theorem run_general : ∀ (acts : List (Action ε α)) {s s' : ModernThreadPool ε α}
    {ls : List (Label ε α)}, run acts s = some (ls, s') →
      s'.generalWorkers.map (fun th => th.type) = s.generalWorkers.map (fun th => th.type)
  | [], s, s', ls, h => by
    simp only [run, Option.some.injEq, Prod.mk.injEq] at h
    rw [← h.2]
  | a :: acts, s, s', ls, h => by
    obtain ⟨l, s1, ls', h1, h2, _⟩ := run_cons h
    rw [run_general acts h2, exec_general h1]

theorem construct_bound (n : Nat) : Bound (construct n : ModernThreadPool ε α) := by
  refine ⟨?_, ?_, ?_⟩
  · intro th hth
    have := List.eq_of_mem_replicate hth
    rw [this]
  · intro e he
    simp [construct] at he
  · simp [construct]


/-! ## The effect of one action -/

theorem queueOf_assign_index (s : ModernThreadPool ε α) (type L : TaskType)
    (q : List (PackagedTask ε α)) (fs : List (SharedState ε α)) :
    queueOf { s with taskQueues := assign (index [] s.taskQueues type).2 type q,
                     futures := fs } L = if L = type then q else queueOf s L := by
  unfold queueOf
  simp only [find_assign_index]
  by_cases h : L = type
  · simp [h]
  · simp [h]

theorem queueOf_addDedicatedThread (s : ModernThreadPool ε α) (type L : TaskType) :
    queueOf (addDedicatedThread type s) L = queueOf s L := by
  unfold addDedicatedThread
  split <;> rfl

theorem thread_eta {th : Thread} (h : th.finished = false) : th = ⟨th.type, false⟩ := by
  cases th
  simp only [Thread.mk.injEq, true_and]
  exact h

/-- What an action does to the lanes and to the shared states, by label. -/
theorem exec_cases {a : Action ε α} {s s1 : ModernThreadPool ε α} {l : Label ε α}
    (h : exec a s = some (l, s1)) :
    (l = .silent ∧ (∀ L, queueOf s1 L = queueOf s L) ∧ s1.futures = s.futures) ∨
    (∃ id ty, l = .returned id ty ∧ a = .schedule id ∧ thread? s id = some ⟨ty, false⟩ ∧
        s.stop = true ∧ queueOf s ty = [] ∧ (∀ L, queueOf s1 L = queueOf s L) ∧
        s1.futures = s.futures) ∨
    (∃ ty t, l = .pushed ty t ∧ t.shared = s.futures.length ∧
        s1.futures = s.futures ++ [none] ∧ queueOf s1 ty = queueOf s ty ++ [t] ∧
        (∀ L, L ≠ ty → queueOf s1 L = queueOf s L)) ∨
    (∃ id ty t, l = .ran id ty t ∧ a = .schedule id ∧ thread? s id = some ⟨ty, false⟩ ∧
        queueOf s ty = t :: queueOf s1 ty ∧ (∀ L, L ≠ ty → queueOf s1 L = queueOf s L) ∧
        t.invoke s.futures = (false, s1.futures)) := by
  cases a with
  | addDedicatedThread type =>
    simp only [exec, Option.some.injEq, Prod.mk.injEq] at h
    refine Or.inl ⟨h.1.symm, fun L => ?_, ?_⟩
    · rw [← h.2, queueOf_addDedicatedThread]
    · rw [← h.2]; unfold addDedicatedThread; split <;> rfl
  | submit type fn =>
    simp only [exec, Option.some.injEq, Prod.mk.injEq] at h
    refine Or.inr (Or.inr (Or.inl ⟨type, _, h.1.symm, rfl, ?_, ?_, fun L hL => ?_⟩))
    · rw [← h.2]; rfl
    · rw [← h.2, queueOf_submit, if_pos rfl]; rfl
    · rw [← h.2, queueOf_submit, if_neg hL]
  | schedule id =>
    obtain ⟨th, hth, hfin, h1 | ⟨t, rest, fs, hl, hq, hi, h1⟩⟩ := step_spec h
    · refine Or.inr (Or.inl ⟨id, th.type, h1.1, rfl, ?_, h1.2.1, h1.2.2.1, fun L => ?_, ?_⟩)
      · rw [hth, thread_eta hfin]
      · rw [h1.2.2.2, queueOf_markFinished, queueOf_index]
      · rw [h1.2.2.2]
        cases id with
        | general i =>
          rw [markFinished_general]
          simp only
          cases s.generalWorkers[i]? <;> rfl
        | dedicated type => rfl
    · refine Or.inr (Or.inr (Or.inr ⟨id, th.type, t, hl, rfl, ?_, ?_, fun L hL => ?_, ?_⟩))
      · rw [hth, thread_eta hfin]
      · rw [h1, queueOf_assign_index, if_pos rfl, hq]
      · rw [h1, queueOf_assign_index, if_neg hL]
      · rw [h1]; exact hi
  | setStop =>
    simp only [exec, Option.some.injEq, Prod.mk.injEq] at h
    refine Or.inl ⟨h.1.symm, fun L => ?_, ?_⟩
    · rw [← h.2]; rfl
    · rw [← h.2]; rfl

/-- The FIFO bookkeeping of one action on every lane. -/
theorem exec_queue {a : Action ε α} {s s1 : ModernThreadPool ε α} {l : Label ε α}
    (h : exec a s = some (l, s1)) (L : TaskType) :
    dequeued L [l] ++ queueOf s1 L = queueOf s L ++ pushed L [l] := by
  rcases exec_cases h with ⟨hl, hq, _⟩ | ⟨id, ty, hl, _, _, _, _, hq, _⟩ |
    ⟨ty, t, hl, _, _, hq, hq'⟩ | ⟨id, ty, t, hl, _, _, hq, hq', _⟩
  · subst hl; simp [dequeued, pushed, hq]
  · subst hl; simp [dequeued, pushed, hq]
  · subst hl
    by_cases hL : ty = L
    · subst hL; simp [dequeued, pushed, hq]
    · have hL' : L ≠ ty := fun e => hL e.symm
      simp [dequeued, pushed, hL, hq' L hL']
  · subst hl
    by_cases hL : ty = L
    · subst hL; simp [dequeued, pushed, hq]
    · have hL' : L ≠ ty := fun e => hL e.symm
      simp [dequeued, pushed, hL, hq' L hL']

theorem dequeued_cons (L : TaskType) (l : Label ε α) (ls : List (Label ε α)) :
    dequeued L (l :: ls) = dequeued L [l] ++ dequeued L ls := by
  cases l with
  | ran id ty t => by_cases h : ty = L <;> simp [dequeued, h]
  | returned id ty => simp [dequeued]
  | pushed ty t => simp [dequeued]
  | silent => simp [dequeued]

theorem pushed_cons (L : TaskType) (l : Label ε α) (ls : List (Label ε α)) :
    pushed L (l :: ls) = pushed L [l] ++ pushed L ls := by
  cases l with
  | ran id ty t => simp [pushed]
  | returned id ty => simp [pushed]
  | pushed ty t => by_cases h : ty = L <;> simp [pushed, h]
  | silent => simp [pushed]

/-- Along every run each lane is first-in first-out: what was dequeued,
followed by what is still pending, is what was pending at the start followed
by what was pushed. -/
theorem run_queue : ∀ (acts : List (Action ε α)) {s s' : ModernThreadPool ε α}
    {ls : List (Label ε α)}, run acts s = some (ls, s') → ∀ L,
      dequeued L ls ++ queueOf s' L = queueOf s L ++ pushed L ls
  | [], s, s', ls, h, L => by
    simp only [run, Option.some.injEq, Prod.mk.injEq] at h
    rw [← h.1, ← h.2]; simp [dequeued, pushed]
  | a :: acts, s, s', ls, h, L => by
    obtain ⟨l, s1, ls', h1, h2, h3⟩ := run_cons h
    rw [h3, dequeued_cons, pushed_cons, List.append_assoc, run_queue acts h2 L,
      ← List.append_assoc, exec_queue h1 L, List.append_assoc]


/-! ## The shared states -/

theorem invoke_false {t : PackagedTask ε α} {fs fs' : List (SharedState ε α)}
    (h : t.invoke fs = (false, fs')) :
    fs[t.shared]? = some none ∧ fs' = fs.set t.shared (some (t.fn ())) := by
  unfold PackagedTask.invoke at h
  split at h
  · next heq =>
    simp only [Prod.mk.injEq, true_and] at h
    exact ⟨heq, h.symm⟩
  · simp at h

theorem invoke_empty {t : PackagedTask ε α} {fs : List (SharedState ε α)}
    (h : fs[t.shared]? = some none) :
    t.invoke fs = (false, fs.set t.shared (some (t.fn ()))) := by
  unfold PackagedTask.invoke
  rw [h]

theorem workerThread_eq (type : TaskType) (s : ModernThreadPool ε α) :
    workerThread type s =
      match queueOf s type with
      | [] =>
        if s.stop then .returned { s with taskQueues := (index [] s.taskQueues type).2 }
        else .waiting { s with taskQueues := (index [] s.taskQueues type).2 }
      | t :: rest =>
        match t.invoke s.futures with
        | (false, fs) =>
          .ran t { s with taskQueues := assign (index [] s.taskQueues type).2 type rest,
                          futures := fs }
        | (true, _) => .terminate := by
  unfold workerThread queueOf
  simp only [index_fst]

theorem step_ran {id : ThreadId} {s : ModernThreadPool ε α} {th : Thread}
    {t : PackagedTask ε α} {rest : List (PackagedTask ε α)}
    (hth : thread? s id = some th) (hfin : th.finished = false)
    (hq : queueOf s th.type = t :: rest) (hf : s.futures[t.shared]? = some none) :
    step id s = some (.ran id th.type t,
      { s with taskQueues := assign (index [] s.taskQueues th.type).2 th.type rest,
               futures := s.futures.set t.shared (some (t.fn ())) }) := by
  unfold step
  simp only [hth, hfin, Bool.false_eq_true, if_false, workerThread_eq, hq, invoke_empty hf]

theorem step_returned {id : ThreadId} {s : ModernThreadPool ε α} {th : Thread}
    (hth : thread? s id = some th) (hfin : th.finished = false)
    (hq : queueOf s th.type = []) (hs : s.stop = true) :
    step id s = some (.returned id th.type,
      markFinished { s with taskQueues := (index [] s.taskQueues th.type).2 } id) := by
  unfold step
  simp only [hth, hfin, Bool.false_eq_true, if_false, workerThread_eq, hq, hs, if_true]

theorem consistent_exec {a : Action ε α} {s s1 : ModernThreadPool ε α} {l : Label ε α}
    (h : exec a s = some (l, s1)) (hc : Consistent s) : Consistent s1 := by
  obtain ⟨hA, hB, hC⟩ := hc
  rcases exec_cases h with ⟨_, hq, hf⟩ | ⟨id, ty, _, _, _, _, _, hq, hf⟩ |
    ⟨ty, t, _, hsh, hf, hq, hq'⟩ | ⟨id, ty, t, _, _, _, hq, hq', hi⟩
  · refine ⟨fun L t ht => ?_, fun L => ?_, fun L L' t t' hne ht ht' => ?_⟩
    · rw [hf]; rw [hq] at ht; exact hA L t ht
    · rw [hq]; exact hB L
    · rw [hq] at ht ht'; exact hC L L' t t' hne ht ht'
  · refine ⟨fun L t ht => ?_, fun L => ?_, fun L L' t t' hne ht ht' => ?_⟩
    · rw [hf]; rw [hq] at ht; exact hA L t ht
    · rw [hq]; exact hB L
    · rw [hq] at ht ht'; exact hC L L' t t' hne ht ht'
  · -- a push: the new task owns the fresh shared state
    have hlt : ∀ L t', t' ∈ queueOf s L → t'.shared < s.futures.length := by
      intro L t' ht'
      have := hA L t' ht'
      by_contra hge
      rw [List.getElem?_eq_none (Nat.le_of_not_lt hge)] at this
      cases this
    have hmem : ∀ L t', t' ∈ queueOf s1 L → t' = t ∨ t' ∈ queueOf s L := by
      intro L t' ht'
      by_cases hL : L = ty
      · subst hL
        rw [hq, List.mem_append, List.mem_singleton] at ht'
        exact ht'.symm
      · rw [hq' L hL] at ht'; exact Or.inr ht'
    refine ⟨fun L t' ht' => ?_, fun L => ?_, fun L L' t1 t2 hne h1 h2 => ?_⟩
    · rw [hf]
      rcases hmem L t' ht' with rfl | hold
      · rw [hsh]; simp
      · rw [List.getElem?_append_left (hlt L t' hold)]
        exact hA L t' hold
    · by_cases hL : L = ty
      · subst hL
        rw [hq, List.map_append]
        refine List.Nodup.append (hB L) (List.nodup_singleton _) ?_
        simp only [List.map_cons, List.map_nil, List.disjoint_singleton]
        intro hin
        obtain ⟨t', ht', he⟩ := List.mem_map.1 hin
        have := hlt L t' ht'
        omega
      · rw [hq' L hL]; exact hB L
    · rcases hmem L t1 h1 with rfl | h1'
      · rcases hmem L' t2 h2 with rfl | h2'
        · -- both are the new task: it sits in lane `ty` only
          exfalso
          have e1 : L = ty := by
            by_contra hL
            rw [hq' L hL] at h1
            have := hlt L _ h1
            omega
          have e2 : L' = ty := by
            by_contra hL
            rw [hq' L' hL] at h2
            have := hlt L' _ h2
            omega
          exact hne (e1.trans e2.symm)
        · have := hlt L' t2 h2'
          omega
      · rcases hmem L' t2 h2 with rfl | h2'
        · have := hlt L t1 h1'
          omega
        · exact hC L L' t1 t2 hne h1' h2'
  · -- a dequeue: the task run owned a shared state no pending task owns
    obtain ⟨_, hf⟩ := invoke_false hi
    have hsub : ∀ L t', t' ∈ queueOf s1 L → t' ∈ queueOf s L := by
      intro L t' ht'
      by_cases hL : L = ty
      · subst hL; rw [hq]; exact List.mem_cons_of_mem _ ht'
      · rw [hq' L hL] at ht'; exact ht'
    have hnd := hB ty
    rw [hq, List.map_cons, List.nodup_cons] at hnd
    have hdiff : ∀ L t', t' ∈ queueOf s1 L → t'.shared ≠ t.shared := by
      intro L t' ht' he
      by_cases hL : L = ty
      · subst hL
        exact hnd.1 (he ▸ List.mem_map_of_mem (fun t => t.shared) ht')
      · have ht : t ∈ queueOf s ty := by rw [hq]; exact List.mem_cons_self _ _
        exact hC L ty t' t hL (hsub L t' ht') ht he
    refine ⟨fun L t' ht' => ?_, fun L => ?_, fun L L' t1 t2 hne h1 h2 => ?_⟩
    · rw [hf, List.getElem?_set_ne (fun e => hdiff L t' ht' e.symm)]
      exact hA L t' (hsub L t' ht')
    · by_cases hL : L = ty
      · subst hL; exact hnd.2
      · rw [hq' L hL]; exact hB L
    · exact hC L L' t1 t2 hne (hsub L t1 h1) (hsub L' t2 h2)

theorem consistent_run : ∀ (acts : List (Action ε α)) {s s' : ModernThreadPool ε α}
    {ls : List (Label ε α)}, run acts s = some (ls, s') → Consistent s → Consistent s'
  | [], s, s', ls, h, hc => by
    simp only [run, Option.some.injEq, Prod.mk.injEq] at h
    rw [← h.2]; exact hc
  | a :: acts, s, s', ls, h, hc => by
    obtain ⟨l, s1, ls', h1, h2, _⟩ := run_cons h
    exact consistent_run acts h2 (consistent_exec h1 hc)

theorem consistent_construct (n : Nat) : Consistent (construct n : ModernThreadPool ε α) := by
  refine ⟨fun L t ht => ?_, fun L => ?_, fun L L' t t' _ ht _ => ?_⟩
  · simp [queueOf, construct, find] at ht
  · simp [queueOf, construct, find]
  · simp [queueOf, construct, find] at ht


/-! ## From `submit` to `get` -/

theorem get_eq_some {s : ModernThreadPool ε α} {res : Nat} {v : Except ε α} :
    get s res = some v ↔ s.futures[res]? = some (some v) := by
  unfold get
  cases h : s.futures[res]? with
  | none => simp
  | some o => cases o <;> simp

/-- A ready future stays ready with the same content. -/
theorem get_exec {a : Action ε α} {s s1 : ModernThreadPool ε α} {l : Label ε α}
    (h : exec a s = some (l, s1)) {res : Nat} {v : Except ε α}
    (hg : get s res = some v) : get s1 res = some v := by
  rw [get_eq_some] at hg ⊢
  have hlt : res < s.futures.length := by
    by_contra hge
    rw [List.getElem?_eq_none (Nat.le_of_not_lt hge)] at hg
    cases hg
  rcases exec_cases h with ⟨_, _, hf⟩ | ⟨id, ty, _, _, _, _, _, _, hf⟩ |
    ⟨ty, t, _, _, hf, _, _⟩ | ⟨id, ty, t, _, _, _, _, _, hi⟩
  · rw [hf]; exact hg
  · rw [hf]; exact hg
  · rw [hf, List.getElem?_append_left hlt]; exact hg
  · obtain ⟨he, hf⟩ := invoke_false hi
    have hne : t.shared ≠ res := by
      intro e
      rw [e, hg] at he
      cases he
    rw [hf, List.getElem?_set_ne hne]
    exact hg

theorem get_run : ∀ (acts : List (Action ε α)) {s s' : ModernThreadPool ε α}
    {ls : List (Label ε α)} {res : Nat} {v : Except ε α},
    run acts s = some (ls, s') → get s res = some v → get s' res = some v
  | [], s, s', ls, res, v, h, hg => by
    simp only [run, Option.some.injEq, Prod.mk.injEq] at h
    rw [← h.2]; exact hg
  | a :: acts, s, s', ls, res, v, h, hg => by
    obtain ⟨l, s1, ls', h1, h2, _⟩ := run_cons h
    exact get_run acts h2 (get_exec h1 hg)

/-- While the shared state `res` is empty, every pending task that owns it
computes `v`; one action keeps this, and running such a task stores `v`. -/
theorem owner_exec {a : Action ε α} {s s1 : ModernThreadPool ε α} {l : Label ε α}
    (h : exec a s = some (l, s1)) {res : Nat} {v : Except ε α}
    (he : s.futures[res]? = some none)
    (ho : ∀ L t, t ∈ queueOf s L → t.shared = res → t.fn () = v) :
    ((s1.futures[res]? = some none ∧
        ∀ L t, t ∈ queueOf s1 L → t.shared = res → t.fn () = v) ∨ get s1 res = some v) ∧
      (∀ id ty t, l = .ran id ty t → t.shared = res → get s1 res = some v) := by
  have hlt : res < s.futures.length := by
    by_contra hge
    rw [List.getElem?_eq_none (Nat.le_of_not_lt hge)] at he
    cases he
  rcases exec_cases h with ⟨hl, hq, hf⟩ | ⟨id, ty, hl, _, _, _, _, hq, hf⟩ |
    ⟨ty, t, hl, hsh, hf, hq, hq'⟩ | ⟨id, ty, t, hl, _, _, hq, hq', hi⟩
  · refine ⟨Or.inl ⟨by rw [hf]; exact he, fun L t ht => ho L t (by rw [← hq]; exact ht)⟩, ?_⟩
    intro id ty t e; rw [hl] at e; cases e
  · refine ⟨Or.inl ⟨by rw [hf]; exact he, fun L t ht => ho L t (by rw [← hq]; exact ht)⟩, ?_⟩
    intro id ty t e; rw [hl] at e; cases e
  · refine ⟨Or.inl ⟨by rw [hf, List.getElem?_append_left hlt]; exact he, ?_⟩, ?_⟩
    · intro L t' ht' hres
      by_cases hL : L = ty
      · subst hL
        rw [hq, List.mem_append, List.mem_singleton] at ht'
        rcases ht' with hold | rfl
        · exact ho L t' hold hres
        · omega
      · rw [hq' L hL] at ht'; exact ho L t' ht' hres
    · intro id ty t e; rw [hl] at e; cases e
  · obtain ⟨hemp, hf⟩ := invoke_false hi
    have ht : t ∈ queueOf s ty := by rw [hq]; exact List.mem_cons_self _ _
    have hsub : ∀ L t', t' ∈ queueOf s1 L → t' ∈ queueOf s L := by
      intro L t' ht'
      by_cases hL : L = ty
      · subst hL; rw [hq]; exact List.mem_cons_of_mem _ ht'
      · rw [hq' L hL] at ht'; exact ht'
    by_cases hres : t.shared = res
    · have hget : get s1 res = some v := by
        rw [get_eq_some, hf, hres, List.getElem?_set_self hlt, ho ty t ht hres]
      exact ⟨Or.inr hget, fun _ _ _ _ _ => hget⟩
    · refine ⟨Or.inl ⟨by rw [hf, List.getElem?_set_ne hres]; exact he,
        fun L t' ht' => ho L t' (hsub L t' ht')⟩, ?_⟩
      intro id' ty' t' e hres'
      rw [hl] at e
      cases e
      exact absurd hres' hres

theorem owner_run : ∀ (acts : List (Action ε α)) {s s' : ModernThreadPool ε α}
    {ls : List (Label ε α)} {res : Nat} {v : Except ε α},
    run acts s = some (ls, s') → s.futures[res]? = some none →
    (∀ L t, t ∈ queueOf s L → t.shared = res → t.fn () = v) →
    (∃ id ty t, Label.ran id ty t ∈ ls ∧ t.shared = res) → get s' res = some v
  | [], s, s', ls, res, v, h, _, _, hex => by
    simp only [run, Option.some.injEq, Prod.mk.injEq] at h
    obtain ⟨id, ty, t, hm, _⟩ := hex
    rw [← h.1] at hm
    cases hm
  | a :: acts, s, s', ls, res, v, h, he, ho, hex => by
    obtain ⟨l, s1, ls', h1, h2, h3⟩ := run_cons h
    obtain ⟨hkeep, hnow⟩ := owner_exec h1 he ho
    obtain ⟨id, ty, t, hm, hres⟩ := hex
    rw [h3, List.mem_cons] at hm
    rcases hm with hm | hm
    · exact get_run acts h2 (hnow id ty t hm.symm hres)
    · rcases hkeep with ⟨he1, ho1⟩ | hg
      · exact owner_run acts h2 he1 ho1 ⟨id, ty, t, hm, hres⟩
      · exact get_run acts h2 hg

/-- In a consistent pool an iteration of a worker never lets an exception
escape. -/
theorem workerThread_ne_terminate {s : ModernThreadPool ε α} (hc : Consistent s)
    (type : TaskType) : workerThread type s ≠ Iteration.terminate := by
  rw [workerThread_eq]
  cases hq : queueOf s type with
  | nil =>
    simp only
    split <;> exact fun e => by cases e
  | cons t rest =>
    have ht : t ∈ queueOf s type := by rw [hq]; exact List.mem_cons_self _ _
    simp only [invoke_empty (hc.1 type t ht)]
    exact fun e => by cases e

theorem consistent_submit {s : ModernThreadPool ε α} (hc : Consistent s) (type : TaskType)
    (f : β → Except ε α) (args : β) : Consistent (submit type f args s).2 :=
  consistent_exec
    (show exec (Action.submit type (fun _ => f args)) s = some (_, (submit type f args s).2)
      from rfl) hc


/-! ## Shutdown -/

theorem thread?_addDedicatedThread {s : ModernThreadPool ε α} {id : ThreadId} {th : Thread}
    (type : TaskType) (hth : thread? s id = some th) :
    thread? (addDedicatedThread type s) id = some th := by
  unfold addDedicatedThread
  split
  · cases id with
    | general i => exact hth
    | dedicated k =>
      have hth' : find s.dedicatedWorkers k = some th := hth
      show find (s.dedicatedWorkers ++ _) k = some th
      rw [find_append, hth']
  · exact hth

/-- A thread stays in the pool, bound to the same lane; it becomes finished
only by its own step that leaves the loop. -/
theorem exec_thread {a : Action ε α} {s s1 : ModernThreadPool ε α} {l : Label ε α}
    (h : exec a s = some (l, s1)) {id : ThreadId} {th : Thread}
    (hth : thread? s id = some th) :
    ∃ th1, thread? s1 id = some th1 ∧ th1.type = th.type ∧
      (th1.finished = th.finished ∨
        (th.finished = false ∧ th1.finished = true ∧ l = .returned id th.type)) := by
  cases a with
  | addDedicatedThread type =>
    simp only [exec, Option.some.injEq, Prod.mk.injEq] at h
    rw [← h.2]
    exact ⟨th, thread?_addDedicatedThread type hth, rfl, Or.inl rfl⟩
  | submit type fn =>
    simp only [exec, Option.some.injEq, Prod.mk.injEq] at h
    rw [← h.2]
    exact ⟨th, by cases id <;> exact hth, rfl, Or.inl rfl⟩
  | setStop =>
    simp only [exec, Option.some.injEq, Prod.mk.injEq] at h
    rw [← h.2]
    exact ⟨th, by cases id <;> exact hth, rfl, Or.inl rfl⟩
  | schedule id0 =>
    obtain ⟨th0, hth0, hfin0, h1 | ⟨t, rest, fs, hl, hq, hi, h1⟩⟩ := step_spec h
    · have hthq : thread? { s with taskQueues := (index [] s.taskQueues th0.type).2 } id
          = some th := by cases id <;> exact hth
      have hthq0 : thread? { s with taskQueues := (index [] s.taskQueues th0.type).2 } id0
          = some th0 := by cases id0 <;> exact hth0
      rw [h1.2.2.2, thread?_markFinished]
      by_cases hid : id = id0
      · subst hid
        rw [hth] at hth0
        cases hth0
        rw [if_pos rfl, hthq0]
        exact ⟨_, rfl, rfl, Or.inr ⟨hfin0, rfl, h1.1⟩⟩
      · rw [if_neg hid, hthq]
        exact ⟨th, rfl, rfl, Or.inl rfl⟩
    · rw [h1]
      exact ⟨th, by cases id <;> exact hth, rfl, Or.inl rfl⟩

/-- A thread that left its loop during a run had, before leaving, dequeued
every task its lane held at the start of the run. -/
theorem drained : ∀ (acts : List (Action ε α)) {s s' : ModernThreadPool ε α}
    {ls : List (Label ε α)} {id : ThreadId} {th th' : Thread},
    run acts s = some (ls, s') → thread? s id = some th → th.finished = false →
    thread? s' id = some th' → th'.finished = true →
    queueOf s th.type <+: dequeued th.type ls
  | [], s, s', ls, id, th, th', h, hth, hfin, hth', hfin' => by
    simp only [run, Option.some.injEq, Prod.mk.injEq] at h
    rw [← h.2, hth] at hth'
    cases hth'
    rw [hfin] at hfin'
    cases hfin'
  | a :: acts, s, s', ls, id, th, th', h, hth, hfin, hth', hfin' => by
    obtain ⟨l, s1, ls', h1, h2, h3⟩ := run_cons h
    obtain ⟨th1, hth1, hty, hcase⟩ := exec_thread h1 hth
    rcases hcase with hsame | ⟨_, _, hl⟩
    · have ih := drained acts h2 hth1 (hsame.trans hfin) hth' hfin'
      rw [hty] at ih
      rw [h3, dequeued_cons]
      have hq := exec_queue h1 th.type
      have h4 : queueOf s th.type <+: dequeued th.type [l] ++ queueOf s1 th.type := by
        rw [hq]; exact List.prefix_append _ _
      exact h4.trans ((List.prefix_append_right_inj _).2 ih)
    · rcases exec_cases h1 with ⟨hl', _⟩ | ⟨id', ty, hl', _, _, _, hq, _⟩ |
        ⟨ty, t, hl', _⟩ | ⟨id', ty, t, hl', _⟩
      · rw [hl] at hl'; cases hl'
      · rw [hl] at hl'
        cases hl'
        rw [hq]
        exact List.nil_prefix
      · rw [hl] at hl'; cases hl'
      · rw [hl] at hl'; cases hl'

/-- A thread leaves its loop only when `stop` is set and its lane is empty. -/
theorem step_returned_only {id : ThreadId} {s s1 : ModernThreadPool ε α} {ty : TaskType}
    {id' : ThreadId} (h : step id s = some (.returned id' ty, s1)) :
    s.stop = true ∧ queueOf s ty = [] ∧ thread? s id = some ⟨ty, false⟩ := by
  rcases exec_cases (show exec (Action.schedule id) s = some (_, s1) from h) with
    ⟨hl', _⟩ | ⟨id', ty, hl', ha, hth, hs, hq, _⟩ | ⟨ty, t, hl', _⟩ | ⟨id', ty, t, hl', _⟩
  · cases hl'
  · cases hl'
    cases ha
    exact ⟨hs, hq, hth⟩
  · cases hl'
  · cases hl'


theorem run_append : ∀ (a1 a2 : List (Action ε α)) {s s1 s2 : ModernThreadPool ε α}
    {l1 l2 : List (Label ε α)}, run a1 s = some (l1, s1) → run a2 s1 = some (l2, s2) →
    run (a1 ++ a2) s = some (l1 ++ l2, s2)
  | [], a2, s, s1, s2, l1, l2, h1, h2 => by
    simp only [run, Option.some.injEq, Prod.mk.injEq] at h1
    obtain ⟨e1, e2⟩ := h1
    subst e1; subst e2
    simpa using h2
  | a :: a1, a2, s, s1, s2, l1, l2, h1, h2 => by
    obtain ⟨l, s0, ls', he, hr, hl⟩ := run_cons h1
    have ih := run_append a1 a2 hr h2
    rw [hl]
    show run (a :: (a1 ++ a2)) s = _
    unfold run
    simp only [he, ih, List.cons_append]

theorem step_returned_ex {id : ThreadId} {s : ModernThreadPool ε α} {th : Thread}
    (hth : thread? s id = some th) (hfin : th.finished = false)
    (hq : queueOf s th.type = []) (hs : s.stop = true) :
    ∃ s1, step id s = some (.returned id th.type, s1) ∧ returned s1 id = true := by
  refine ⟨_, step_returned hth hfin hq hs, ?_⟩
  unfold returned
  rw [thread?_markFinished, if_pos rfl]
  have : thread? { s with taskQueues := (index [] s.taskQueues th.type).2 } id
      = some th := by cases id <;> exact hth
  rw [this]; rfl

theorem step_ran_ex {id : ThreadId} {s : ModernThreadPool ε α} {th : Thread}
    {t : PackagedTask ε α} {rest : List (PackagedTask ε α)}
    (hth : thread? s id = some th) (hfin : th.finished = false)
    (hq : queueOf s th.type = t :: rest) (hc : Consistent s) :
    ∃ s1, step id s = some (.ran id th.type t, s1) ∧ thread? s1 id = some th ∧
      queueOf s1 th.type = rest ∧ s1.stop = s.stop := by
  have ht : t ∈ queueOf s th.type := by rw [hq]; exact List.mem_cons_self _ _
  refine ⟨_, step_ran hth hfin hq (hc.1 _ t ht), ?_, ?_, rfl⟩
  · cases id <;> exact hth
  · rw [queueOf_assign_index, if_pos rfl]

theorem join_total : ∀ (fuel : Nat) (id : ThreadId) (s : ModernThreadPool ε α),
    s.stop = true → Consistent s →
    (∀ th, thread? s id = some th → (queueOf s th.type).length < fuel) →
    ∃ ls s', join fuel id s = some (ls, s') ∧
      run (List.replicate ls.length (Action.schedule id)) s = some (ls, s') ∧
      returned s' id = true
  | fuel, id, s, hs, hc, hlen => by
    cases hret : returned s id with
    | true =>
      refine ⟨[], s, ?_, rfl, hret⟩
      cases fuel <;> simp [join, hret]
    | false =>
      have hex : ∃ th, thread? s id = some th ∧ th.finished = false := by
        unfold returned at hret
        cases hth : thread? s id with
        | none => simp [hth] at hret
        | some th => exact ⟨th, rfl, by simpa [hth] using hret⟩
      obtain ⟨th, hth, hfin⟩ := hex
      cases fuel with
      | zero => exact absurd (hlen th hth) (Nat.not_lt_zero _)
      | succ fuel =>
        cases hq : queueOf s th.type with
        | nil =>
          obtain ⟨s1, hst, hret1⟩ := step_returned_ex hth hfin hq hs
          have hj : join fuel id s1 = some ([], s1) := by
            cases fuel <;> simp [join, hret1]
          refine ⟨[Label.returned id th.type], s1, ?_, ?_, hret1⟩
          · simp only [join, hret, Bool.false_eq_true, if_false, hst, hj]
          · show run [Action.schedule id] s = _
            simp only [run, exec, hst]
        | cons t rest =>
          obtain ⟨s1, hst, hth1, hq1, hs1⟩ := step_ran_ex hth hfin hq hc
          have hex : exec (Action.schedule id) s = some (Label.ran id th.type t, s1) := hst
          have hlen1 : ∀ th', thread? s1 id = some th' →
              (queueOf s1 th'.type).length < fuel := by
            intro th' e
            rw [hth1] at e
            cases e
            rw [hq1]
            have := hlen th hth
            rw [hq] at this
            simpa using this
          obtain ⟨ls, s', hj, hr, hdone⟩ :=
            join_total fuel id s1 (hs1.trans hs) (consistent_exec hex hc) hlen1
          refine ⟨Label.ran id th.type t :: ls, s', ?_, ?_, hdone⟩
          · simp only [join, hret, Bool.false_eq_true, if_false, hst, hj]
          · show run (Action.schedule id :: List.replicate ls.length (Action.schedule id)) s
              = _
            unfold run
            simp only [exec, hst, hr]


theorem exec_stop {a : Action ε α} {s s1 : ModernThreadPool ε α} {l : Label ε α}
    (h : exec a s = some (l, s1)) (hs : s.stop = true) : s1.stop = true := by
  cases a with
  | addDedicatedThread type =>
    simp only [exec, Option.some.injEq, Prod.mk.injEq] at h
    rw [← h.2]; unfold addDedicatedThread; split <;> exact hs
  | submit type fn =>
    simp only [exec, Option.some.injEq, Prod.mk.injEq] at h
    rw [← h.2]; exact hs
  | setStop =>
    simp only [exec, Option.some.injEq, Prod.mk.injEq] at h
    rw [← h.2]; rfl
  | schedule id =>
    obtain ⟨th, _, _, h1 | ⟨t, rest, fs, _, _, _, h1⟩⟩ := step_spec h
    · rw [h1.2.2.2]
      cases id with
      | general i =>
        rw [markFinished_general]
        simp only
        cases s.generalWorkers[i]? <;> exact hs
      | dedicated type => exact hs
    · rw [h1]; exact hs

theorem run_stop : ∀ (acts : List (Action ε α)) {s s' : ModernThreadPool ε α}
    {ls : List (Label ε α)}, run acts s = some (ls, s') → s.stop = true → s'.stop = true
  | [], s, s', ls, h, hs => by
    simp only [run, Option.some.injEq, Prod.mk.injEq] at h
    rw [← h.2]; exact hs
  | a :: acts, s, s', ls, h, hs => by
    obtain ⟨l, s1, ls', h1, h2, _⟩ := run_cons h
    exact run_stop acts h2 (exec_stop h1 hs)

theorem run_thread : ∀ (acts : List (Action ε α)) {s s' : ModernThreadPool ε α}
    {ls : List (Label ε α)} {id : ThreadId} {th : Thread},
    run acts s = some (ls, s') → thread? s id = some th →
    ∃ th', thread? s' id = some th' ∧ th'.type = th.type ∧
      (th.finished = true → th'.finished = true)
  | [], s, s', ls, id, th, h, hth => by
    simp only [run, Option.some.injEq, Prod.mk.injEq] at h
    rw [← h.2]
    exact ⟨th, hth, rfl, fun hf => hf⟩
  | a :: acts, s, s', ls, id, th, h, hth => by
    obtain ⟨l, s1, ls', h1, h2, _⟩ := run_cons h
    obtain ⟨th1, hth1, hty, hcase⟩ := exec_thread h1 hth
    obtain ⟨th', hth', hty', hf⟩ := run_thread acts h2 hth1
    refine ⟨th', hth', hty'.trans hty, fun hfin => hf ?_⟩
    rcases hcase with hsame | ⟨_, h1f, _⟩
    · exact hsame.trans hfin
    · exact h1f

/-- Runs made of thread steps only push nothing and add no thread. -/
theorem schedule_only : ∀ (acts : List (Action ε α)) {s s' : ModernThreadPool ε α}
    {ls : List (Label ε α)}, (∀ a ∈ acts, ∃ id, a = Action.schedule id) →
    run acts s = some (ls, s') → (∀ L, pushed L ls = []) ∧ dedicatedTypes acts = []
  | [], s, s', ls, _, h => by
    simp only [run, Option.some.injEq, Prod.mk.injEq] at h
    rw [← h.1]
    exact ⟨fun L => rfl, rfl⟩
  | a :: acts, s, s', ls, hall, h => by
    obtain ⟨l, s1, ls', h1, h2, h3⟩ := run_cons h
    obtain ⟨ih1, ih2⟩ := schedule_only acts (fun a ha => hall a (List.mem_cons_of_mem _ ha)) h2
    obtain ⟨id, rfl⟩ := hall a (List.mem_cons_self _ _)
    refine ⟨fun L => ?_, ?_⟩
    · rw [h3, pushed_cons, ih1 L]
      obtain ⟨th, _, _, h4 | ⟨t, rest, fs, h4, _⟩⟩ := step_spec h1
      · rw [h4.1]; rfl
      · rw [h4]; rfl
    · simpa [dedicatedTypes] using ih2

theorem mem_find : ∀ (m : List (TaskType × V)) {k : TaskType} {v : V},
    (m.map Prod.fst).Nodup → (k, v) ∈ m → find m k = some v
  | [], _, _, _, h => by cases h
  | (k0, v0) :: m, k, v, hnd, h => by
    rw [List.map_cons, List.nodup_cons] at hnd
    rcases List.mem_cons.1 h with e | h'
    · cases e
      simp [find]
    · have hne : ¬ k0 = k := by
        intro e
        have := List.mem_map_of_mem Prod.fst h'
        rw [← e] at this
        exact hnd.1 this
      simp only [find, if_neg hne]
      exact mem_find m hnd.2 h'

theorem joinAll_total (fuel : Nat) : ∀ (ids : List ThreadId) (s : ModernThreadPool ε α),
    s.stop = true → Consistent s → (∀ L, (queueOf s L).length < fuel) →
    ∃ ls s', joinAll fuel ids s = some (ls, s') ∧
      ∃ acts, (∀ a ∈ acts, ∃ id, a = Action.schedule id) ∧ run acts s = some (ls, s') ∧
        ∀ id ∈ ids, ∀ th, thread? s id = some th →
          ∃ th', thread? s' id = some th' ∧ th'.finished = true
  | [], s, _, _, _ => by
    refine ⟨[], s, rfl, [], ?_, rfl, ?_⟩
    · intro a ha; cases ha
    · intro id hid; cases hid
  | id :: ids, s, hs, hc, hlen => by
    obtain ⟨ls1, s1, hj, hr1, hret⟩ := join_total fuel id s hs hc (fun th _ => hlen th.type)
    have honly1 : ∀ a ∈ List.replicate ls1.length (Action.schedule id),
        ∃ id', a = (Action.schedule id' : Action ε α) :=
      fun a ha => ⟨id, List.eq_of_mem_replicate ha⟩
    have hlen1 : ∀ L, (queueOf s1 L).length < fuel := by
      intro L
      have hq := run_queue _ hr1 L
      rw [(schedule_only _ honly1 hr1).1 L, List.append_nil] at hq
      have := congrArg List.length hq
      rw [List.length_append] at this
      have := hlen L
      omega
    obtain ⟨ls2, s2, hj2, acts2, honly2, hr2, hfin2⟩ :=
      joinAll_total fuel ids s1 (run_stop _ hr1 hs) (consistent_run _ hr1 hc) hlen1
    refine ⟨ls1 ++ ls2, s2, ?_, List.replicate ls1.length (Action.schedule id) ++ acts2,
      ?_, run_append _ _ hr1 hr2, ?_⟩
    · simp only [joinAll, hj, hj2]
    · intro a ha
      rcases List.mem_append.1 ha with ha | ha
      · exact honly1 a ha
      · exact honly2 a ha
    · intro id' hid' th hth
      obtain ⟨th1, hth1, _, _⟩ := run_thread _ hr1 hth
      rcases List.mem_cons.1 hid' with e | hin
      · subst e
        have hf1 : th1.finished = true := by
          unfold returned at hret
          rw [hth1] at hret
          exact hret
        obtain ⟨th2, hth2, _, hf2⟩ := run_thread _ hr2 hth1
        exact ⟨th2, hth2, hf2 hf1⟩
      · exact hfin2 id' hin th1 hth1


/-- With enough fuel the destructor returns, every thread joined, and what it
did is an interleaving of thread steps from the pool with `stop` set. -/
theorem destruct_total (fuel : Nat) (s : ModernThreadPool ε α) (hb : Bound s)
    (hc : Consistent s) (hlen : ∀ L, (queueOf s L).length < fuel) :
    ∃ ls s', destruct fuel s = some (ls, s') ∧ allFinished s' = true ∧
      ∃ acts, (∀ a ∈ acts, ∃ id, a = Action.schedule id) ∧
        run acts (setStop s) = some (ls, s') := by
  have hc' : Consistent (setStop s) := hc
  have hb' : Bound (setStop s) := hb
  obtain ⟨ls, s', hj, acts, honly, hr, hfin⟩ :=
    joinAll_total fuel (threadIds s) (setStop s) rfl hc' hlen
  refine ⟨ls, s', hj, ?_, acts, honly, hr⟩
  have hgen := congrArg List.length (run_general acts hr)
  simp only [List.length_map] at hgen
  have hb1 := run_bound acts hr hb'
  unfold allFinished
  rw [Bool.and_eq_true, List.all_eq_true, List.all_eq_true]
  constructor
  · intro th' hmem
    obtain ⟨i, hi, rfl⟩ := List.getElem_of_mem hmem
    have hi' : i < s.generalWorkers.length := by
      have : (setStop s).generalWorkers.length = s.generalWorkers.length := rfl
      omega
    have hin : ThreadId.general i ∈ threadIds s :=
      List.mem_append.2 (Or.inl (List.mem_map.2 ⟨i, List.mem_range.2 hi', rfl⟩))
    have hth : thread? (setStop s) (.general i) = some (s.generalWorkers[i]) := by
      show s.generalWorkers[i]? = _
      exact List.getElem?_eq_getElem hi'
    obtain ⟨th1, hth1, hf1⟩ := hfin _ hin _ hth
    have : s'.generalWorkers[i]? = some th1 := hth1
    rw [List.getElem?_eq_getElem hi] at this
    cases this
    exact hf1
  · intro e he
    obtain ⟨k, v⟩ := e
    have hfind := mem_find s'.dedicatedWorkers hb1.2.2 he
    have hk : k ∈ s'.dedicatedWorkers.map Prod.fst := List.mem_map_of_mem Prod.fst he
    rw [run_keys acts hr k, (schedule_only acts honly hr).2] at hk
    have hk0 : k ∈ s.dedicatedWorkers.map Prod.fst := by
      rcases hk with h | h
      · exact h
      · cases h
    have hin : ThreadId.dedicated k ∈ threadIds s := by
      refine List.mem_append.2 (Or.inr ?_)
      obtain ⟨e0, he0, hk0'⟩ := List.mem_map.1 hk0
      exact List.mem_map.2 ⟨e0, he0, by rw [hk0']⟩
    cases hth : find s.dedicatedWorkers k with
    | none => exact absurd hk0 ((find_eq_none_iff _ _).1 hth)
    | some th =>
      have hth0 : thread? (setStop s) (.dedicated k) = some th := hth
      obtain ⟨th1, hth1, hf1⟩ := hfin _ hin _ hth0
      have : find s'.dedicatedWorkers k = some th1 := hth1
      rw [hfind] at this
      cases this
      exact hf1


/-! ## Further lemmas for the claims -/

theorem allFinished_thread {s : ModernThreadPool ε α} (h : allFinished s = true)
    {id : ThreadId} {th : Thread} (hth : thread? s id = some th) : th.finished = true := by
  unfold allFinished at h
  rw [Bool.and_eq_true, List.all_eq_true, List.all_eq_true] at h
  cases id with
  | general i =>
    have hth' : s.generalWorkers[i]? = some th := hth
    exact h.1 th (List.getElem?_mem hth')
  | dedicated k =>
    exact h.2 (k, th) (find_some_mem hth)

theorem mem_dequeued : ∀ (ls : List (Label ε α)) {L : TaskType} {t : PackagedTask ε α},
    t ∈ dequeued L ls → ∃ id, Label.ran id L t ∈ ls
  | [], _, _, h => by cases h
  | l :: ls, L, t, h => by
    rw [dequeued_cons, List.mem_append] at h
    rcases h with h | h
    · cases l with
      | ran id ty t' =>
        by_cases hty : ty = L
        · subst hty
          simp only [dequeued, if_true, List.mem_singleton] at h
          subst h
          exact ⟨id, List.mem_cons_self _ _⟩
        · simp [dequeued, hty] at h
      | returned id ty => simp [dequeued] at h
      | pushed ty t' => simp [dequeued] at h
      | silent => simp [dequeued] at h
    · obtain ⟨id, hid⟩ := mem_dequeued ls h
      exact ⟨id, List.mem_cons_of_mem _ hid⟩

theorem consistent_unique {s : ModernThreadPool ε α} (hc : Consistent s) {L L' : TaskType}
    {t t' : PackagedTask ε α} (ht : t ∈ queueOf s L) (ht' : t' ∈ queueOf s L')
    (he : t'.shared = t.shared) : t' = t := by
  by_cases hL : L' = L
  · subst hL
    exact List.inj_on_of_nodup_map (hc.2.1 L') ht' ht he
  · exact absurd he (hc.2.2 L' L t' t hL ht' ht)

theorem addDedicatedThread_twice (type : TaskType) (s : ModernThreadPool ε α) :
    addDedicatedThread type (addDedicatedThread type s) = addDedicatedThread type s := by
  cases h : find s.dedicatedWorkers type with
  | none =>
    have h1 : addDedicatedThread type s =
        { s with dedicatedWorkers := s.dedicatedWorkers ++ [(type, ⟨type, false⟩)] } := by
      unfold addDedicatedThread
      simp [h]
    rw [h1]
    unfold addDedicatedThread
    have h2 : find (s.dedicatedWorkers ++ [(type, (⟨type, false⟩ : Thread))]) type =
        some ⟨type, false⟩ := by
      rw [find_append, h]
      simp [find]
    simp only [h2, Option.isNone_some, Bool.false_eq_true, if_false]
  | some th =>
    have h1 : addDedicatedThread type s = s := by
      unfold addDedicatedThread
      simp [h]
    rw [h1, h1]

theorem workerThread_frame (type : TaskType) (s s1 : ModernThreadPool ε α)
    (h : (workerThread type s).pool? = some s1) (L : TaskType) (hL : L ≠ type) :
    queueOf s1 L = queueOf s L := by
  rw [workerThread_eq] at h
  cases hq : queueOf s type with
  | nil =>
    rw [hq] at h
    simp only at h
    cases hs : s.stop with
    | true =>
      simp only [hs, if_true, Iteration.pool?, Option.some.injEq] at h
      rw [← h, ← hs]; exact queueOf_index s type L
    | false =>
      simp only [hs, Bool.false_eq_true, if_false, Iteration.pool?, Option.some.injEq] at h
      rw [← h, ← hs]; exact queueOf_index s type L
  | cons t rest =>
    rw [hq] at h
    simp only at h
    cases hi : t.invoke s.futures with
    | mk b fs =>
      cases b with
      | true => simp [hi, Iteration.pool?] at h
      | false =>
        simp only [hi, Iteration.pool?, Option.some.injEq] at h
        rw [← h, queueOf_assign_index, if_neg hL]

theorem step_frame {id : ThreadId} {s s1 : ModernThreadPool ε α} {l : Label ε α}
    (h : step id s = some (l, s1)) {th : Thread} (hth : thread? s id = some th)
    (L : TaskType) (hL : L ≠ th.type) : queueOf s1 L = queueOf s L := by
  rcases exec_cases (show exec (Action.schedule id) s = some (l, s1) from h) with
    ⟨_, hq, _⟩ | ⟨id', ty, _, _, _, _, _, hq, _⟩ | ⟨ty, t, hl, _⟩ |
    ⟨id', ty, t, hl, ha, hth', _, hq', _⟩
  · exact hq L
  · exact hq L
  · obtain ⟨th0, _, _, h4 | ⟨t', rest, fs, h4, _⟩⟩ := step_spec h
    · rw [h4.1] at hl; cases hl
    · rw [h4] at hl; cases hl
  · cases ha
    rw [hth] at hth'
    cases hth'
    exact hq' L hL


theorem calls_general : ∀ (cs : List (Call ε α)) (p0 : ModernThreadPool ε α)
    (inst' : Option (ModernThreadPool ε α)), calls cs (some p0) = some inst' →
    ∃ p, inst' = some p ∧
      p.generalWorkers.map (fun th => th.type) = p0.generalWorkers.map (fun th => th.type)
  | [], p0, inst', h => by
    simp only [calls, Option.some.injEq] at h
    exact ⟨p0, h.symm, rfl⟩
  | .getInstance m :: cs, p0, inst', h => by
    have h' : calls cs (some p0) = some inst' := h
    exact calls_general cs p0 inst' h'
  | .act a :: cs, p0, inst', h => by
    cases hex : exec a p0 with
    | none => simp [calls, call, hex] at h
    | some r =>
      obtain ⟨l, p1⟩ := r
      have h' : calls cs (some p1) = some inst' := by
        simpa [calls, call, hex] using h
      obtain ⟨p, hp, hg⟩ := calls_general cs p1 inst' h'
      exact ⟨p, hp, hg.trans (exec_general hex)⟩

theorem types_general {s : ModernThreadPool ε α} {n : Nat}
    (h : s.generalWorkers.map (fun th => th.type) =
      (construct n : ModernThreadPool ε α).generalWorkers.map (fun th => th.type)) :
    getGeneralThreadCount s = n ∧ ∀ th ∈ s.generalWorkers, th.type = GENERAL_TASK := by
  have hl := congrArg List.length h
  simp only [List.length_map, construct, List.length_replicate] at hl
  refine ⟨hl, fun th hth => ?_⟩
  have hm : th.type ∈ s.generalWorkers.map (fun th => th.type) :=
    List.mem_map_of_mem (fun th => th.type) hth
  rw [h] at hm
  simp only [construct, List.map_replicate] at hm
  exact List.eq_of_mem_replicate hm

/-- A step of a thread adds no thread and rebinds none. -/
theorem step_thread_back {id0 : ThreadId} {s s1 : ModernThreadPool ε α} {l : Label ε α}
    (h : step id0 s = some (l, s1)) {id : ThreadId} {th1 : Thread}
    (hth1 : thread? s1 id = some th1) :
    ∃ th, thread? s id = some th ∧ th.type = th1.type := by
  obtain ⟨th0, hth0, _, h1 | ⟨t, rest, fs, _, _, _, h1⟩⟩ := step_spec h
  · rw [h1.2.2.2, thread?_markFinished] at hth1
    have hq : ∀ i, thread? { s with taskQueues := (index [] s.taskQueues th0.type).2 } i
        = thread? s i := fun i => by cases i <;> rfl
    rw [hq, hq] at hth1
    by_cases hid : id = id0
    · subst hid
      rw [if_pos rfl, hth0] at hth1
      simp only [Option.map_some', Option.some.injEq] at hth1
      exact ⟨th0, hth0, by rw [← hth1]⟩
    · rw [if_neg hid] at hth1
      exact ⟨th1, hth1, rfl⟩
  · rw [h1] at hth1
    have : thread? s id = some th1 := by cases id <;> exact hth1
    exact ⟨th1, this, rfl⟩

/-- A lane to which no thread is bound keeps its pending queue along every
run made of thread steps, and nothing is dequeued from it. -/
theorem unserved : ∀ (acts : List (Action ε α)) {s s' : ModernThreadPool ε α}
    {ls : List (Label ε α)} (L : TaskType),
    (∀ a ∈ acts, ∃ id, a = Action.schedule id) → run acts s = some (ls, s') →
    (∀ id th, thread? s id = some th → th.type ≠ L) →
    queueOf s' L = queueOf s L ∧ dequeued L ls = []
  | [], s, s', ls, L, _, h, _ => by
    simp only [run, Option.some.injEq, Prod.mk.injEq] at h
    rw [← h.1, ← h.2]
    exact ⟨rfl, rfl⟩
  | a :: acts, s, s', ls, L, hall, h, hno => by
    obtain ⟨l, s1, ls', h1, h2, h3⟩ := run_cons h
    obtain ⟨id0, rfl⟩ := hall a (List.mem_cons_self _ _)
    have hst : step id0 s = some (l, s1) := h1
    obtain ⟨th0, hth0, _, hcase⟩ := step_spec hst
    have hne : L ≠ th0.type := fun e => hno id0 th0 hth0 e.symm
    have hno1 : ∀ id th, thread? s1 id = some th → th.type ≠ L := by
      intro id th hth
      obtain ⟨th', hth', hty⟩ := step_thread_back hst hth
      rw [← hty]
      exact hno id th' hth'
    obtain ⟨ih1, ih2⟩ :=
      unserved acts L (fun a ha => hall a (List.mem_cons_of_mem _ ha)) h2 hno1
    refine ⟨by rw [ih1, step_frame hst hth0 L hne], ?_⟩
    rw [h3, dequeued_cons, ih2, List.append_nil]
    have hne' : ¬ th0.type = L := fun e => hne e.symm
    rcases hcase with h4 | ⟨t, rest, fs, h4, _⟩
    · rw [h4.1]; rfl
    · rw [h4]
      simp only [dequeued, if_neg hne']

/-- On a consistent pool a step of a thread whose lane is not empty takes the
head of the lane, runs it, and leaves its result in its shared state. -/
theorem step_ran_get {id : ThreadId} {s : ModernThreadPool ε α} {th : Thread}
    {t : PackagedTask ε α} {rest : List (PackagedTask ε α)}
    (hth : thread? s id = some th) (hfin : th.finished = false)
    (hq : queueOf s th.type = t :: rest) (hc : Consistent s) :
    ∃ s1, step id s = some (.ran id th.type t, s1) ∧ thread? s1 id = some th ∧
      queueOf s1 th.type = rest ∧ (∀ L, L ≠ th.type → queueOf s1 L = queueOf s L) ∧
      get s1 t.shared = some (t.fn ()) := by
  have ht : t ∈ queueOf s th.type := by rw [hq]; exact List.mem_cons_self _ _
  have he := hc.1 _ t ht
  have hlt : t.shared < s.futures.length := by
    by_contra hge
    rw [List.getElem?_eq_none (Nat.le_of_not_lt hge)] at he
    cases he
  refine ⟨_, step_ran hth hfin hq he, ?_, ?_, fun L hL => ?_, ?_⟩
  · cases id <;> exact hth
  · rw [queueOf_assign_index, if_pos rfl]
  · rw [queueOf_assign_index, if_neg hL]
  · rw [get_eq_some]
    exact List.getElem?_set_self hlt

/-- A thread in its loop, scheduled once per pending task of its lane, runs
exactly those tasks, in queue order, each once, and empties the lane. -/
theorem drain_total : ∀ (q : List (PackagedTask ε α)) (s : ModernThreadPool ε α)
    (id : ThreadId) (th : Thread), thread? s id = some th → th.finished = false →
    Consistent s → queueOf s th.type = q →
    ∃ ls s2, run (List.replicate q.length (Action.schedule id)) s = some (ls, s2) ∧
      ls = q.map (Label.ran id th.type) ∧ queueOf s2 th.type = [] ∧
      ∀ t ∈ q, get s2 t.shared = some (t.fn ())
  | [], s, id, th, _, _, _, hq =>
    ⟨[], s, rfl, rfl, hq, fun t ht => by cases ht⟩
  | t :: rest, s, id, th, hth, hfin, hc, hq => by
    obtain ⟨s1, hst, hth1, hq1, _, hget⟩ := step_ran_get hth hfin hq hc
    have hex : exec (Action.schedule id) s = some (Label.ran id th.type t, s1) := hst
    obtain ⟨ls, s2, hr, hls, hq2, hgets⟩ :=
      drain_total rest s1 id th hth1 hfin (consistent_exec hex hc) hq1
    refine ⟨Label.ran id th.type t :: ls, s2, ?_, by rw [hls]; rfl, hq2, fun t' ht' => ?_⟩
    · show run (Action.schedule id :: List.replicate rest.length (Action.schedule id)) s = _
      unfold run
      simp only [hex, hr]
    · rcases List.mem_cons.1 ht' with e | hin
      · rw [e]
        exact get_run _ hr hget
      · exact hgets t' hin

theorem dequeued_map_ran (id : ThreadId) (L : TaskType) :
    ∀ q : List (PackagedTask ε α), dequeued L (q.map (Label.ran id L)) = q
  | [] => rfl
  | t :: q => by
    simp only [List.map_cons, dequeued, if_true, dequeued_map_ran id L q]

/-! ## The claims -/

/-- C10: each lane of the code is a plain FIFO queue.  Along every
interleaving of client calls and worker iterations, and for every lane, the
tasks dequeued so far followed by the tasks still pending are the tasks
pending at the start followed by the tasks pushed, in submission order (so
each task is dequeued once, in submission order); `submit` takes no priority
and appends at the tail; an iteration that runs a task removes the head of
the lane, whose length drops by exactly one.  On a consistent pool a worker
in its loop whose lane is not empty does dequeue: its step takes the head of
the lane, leaves the rest, keeps the other lanes, and stores the outcome of
that task in its future; scheduled once per pending task, a single worker
runs exactly the pending tasks of its lane, in submission order, each once,
empties the lane and leaves every one of their futures ready. -/
theorem lane_is_fifo (acts : List (Action ε α)) (s s' : ModernThreadPool ε α)
    (ls : List (Label ε α)) (h : run acts s = some (ls, s')) :
    (∀ L, dequeued L ls ++ queueOf s' L = queueOf s L ++ pushed L ls) ∧
    (∀ L, queueOf s L = [] → queueOf s' L = [] → dequeued L ls = pushed L ls) ∧
    (∀ (type : TaskType) (fn : Unit → Except ε α),
      (submit type fn () s').1 = s'.futures.length ∧
      queueOf (submit type fn () s').2 type = queueOf s' type ++ [⟨s'.futures.length, fn⟩]) ∧
    (∀ id id' ty t s1, step id s' = some (Label.ran id' ty t, s1) →
      queueOf s' ty = t :: queueOf s1 ty ∧
      (queueOf s1 ty).length + 1 = (queueOf s' ty).length) ∧
    (Consistent s' → ∀ id th t rest, thread? s' id = some th → th.finished = false →
      queueOf s' th.type = t :: rest →
      ∃ s1, step id s' = some (Label.ran id th.type t, s1) ∧ queueOf s1 th.type = rest ∧
        (∀ L, L ≠ th.type → queueOf s1 L = queueOf s' L) ∧
        get s1 t.shared = some (t.fn ())) ∧
    (Consistent s' → ∀ id th, thread? s' id = some th → th.finished = false →
      ∃ ls2 s2, run (List.replicate (queueOf s' th.type).length (Action.schedule id)) s' =
          some (ls2, s2) ∧
        ls2 = (queueOf s' th.type).map (Label.ran id th.type) ∧
        dequeued th.type ls2 = queueOf s' th.type ∧ queueOf s2 th.type = [] ∧
        ∀ t ∈ queueOf s' th.type, get s2 t.shared = some (t.fn ())) := by
  refine ⟨run_queue acts h, fun L h0 h1 => ?_, fun type fn => ⟨rfl, ?_⟩, ?_, ?_, ?_⟩
  · have := run_queue acts h L
    rw [h0, h1] at this
    simpa using this
  · rw [queueOf_submit, if_pos rfl]
  · intro id id' ty t s1 hst
    rcases exec_cases (show exec (Action.schedule id) s' = some (_, s1) from hst) with
      ⟨hl, _⟩ | ⟨id0, ty0, hl, _⟩ | ⟨ty0, t0, hl, _⟩ | ⟨id0, ty0, t0, hl, _, _, hq, _⟩
    · cases hl
    · cases hl
    · cases hl
    · cases hl
      exact ⟨hq, by rw [hq]; rfl⟩
  · intro hc id th t rest hth hfin hq
    obtain ⟨s1, hst, _, hq1, hframe, hget⟩ := step_ran_get hth hfin hq hc
    exact ⟨s1, hst, hq1, hframe, hget⟩
  · intro hc id th hth hfin
    obtain ⟨ls2, s2, hr, hls, hq2, hgets⟩ :=
      drain_total (queueOf s' th.type) s' id th hth hfin hc rfl
    exact ⟨ls2, s2, hr, hls, by rw [hls, dequeued_map_ran], hq2, hgets⟩

theorem lane_is_fifo_witness :
    run fifoActions (construct 1) = some fifoRun ∧
    dequeued GENERAL_TASK fifoRun.1 ++ queueOf fifoRun.2 GENERAL_TASK =
      queueOf (construct 1) GENERAL_TASK ++ pushed GENERAL_TASK fifoRun.1 ∧
    (dequeued GENERAL_TASK fifoRun.1).map (fun t => t.shared) = [0, 1, 2] ∧
    fifoRun.2.futures = [some (.ok 1), some (.ok 5), some (.ok 1)] ∧
    queueOf fifoRun.2 GENERAL_TASK = [] ∧
    Consistent servedLane ∧
    thread? servedLane (ThreadId.general 0) = some ⟨GENERAL_TASK, false⟩ ∧
    run (List.replicate 3 (Action.schedule (ThreadId.general 0))) servedLane = some drainRun ∧
    drainRun.1 = (queueOf servedLane GENERAL_TASK).map
      (Label.ran (ThreadId.general 0) GENERAL_TASK) ∧
    queueOf drainRun.2 GENERAL_TASK = [] ∧
    drainRun.2.futures = [some (.ok 1), some (.ok 5), some (.ok 1)] ∧
    ∀ t ∈ queueOf servedLane GENERAL_TASK, get drainRun.2 t.shared = some (t.fn ()) := by
  have hsub : run [Action.submit GENERAL_TASK (priorityTask 1),
      Action.submit GENERAL_TASK (priorityTask 5), Action.submit GENERAL_TASK (priorityTask 1)]
      (construct 1) = some (_, servedLane) := rfl
  have hc : Consistent servedLane := consistent_run _ hsub (consistent_construct 1)
  obtain ⟨ls2, s2, hr, hls, _, hq2, hgets⟩ :=
    (lane_is_fifo _ (construct 1) servedLane _ hsub).2.2.2.2.2 hc
      (ThreadId.general 0) ⟨GENERAL_TASK, false⟩ rfl rfl
  have hr' : run (List.replicate 3 (Action.schedule (ThreadId.general 0))) servedLane =
      some (ls2, s2) := hr
  have hd : run (List.replicate 3 (Action.schedule (ThreadId.general 0))) servedLane =
      some drainRun := rfl
  have he : drainRun = (ls2, s2) := by
    rw [hd] at hr'
    exact Option.some.inj hr'
  refine ⟨rfl, (lane_is_fifo fifoActions (construct 1) fifoRun.2 fifoRun.1 rfl).1 GENERAL_TASK,
    by decide, rfl, rfl, hc, rfl, hd, ?_, ?_, rfl, ?_⟩
  · rw [he]; exact hls
  · rw [he]; exact hq2
  · rw [he]; exact hgets

/-- C1 (the code at the failing input): in the scenario of the priority
test (priorities 1, 5, 1 submitted to lane "x", then `addDedicatedThread("x")`)
the worker of "x" dequeues the three tasks in submission order, the
priority-1 task first: the priorities of the tasks it runs are 1, 5, 1. -/
theorem priority_scenario_runs_in_submission_order :
    (run [.schedule (.dedicated "x"), .schedule (.dedicated "x"), .schedule (.dedicated "x")]
        priorityScenario).map
      (fun r => ((dequeued "x" r.1).map (fun t => t.shared),
                 (dequeued "x" r.1).map (fun t => t.fn ()))) =
      some ([0, 1, 2], [.ok 1, .ok 5, .ok 1]) := rfl

/-- C5: a worker only ever dequeues from the lane it is bound to.  In every
reachable pool a general worker is bound to `GENERAL_TASK` and the dedicated
worker of `T` to `T`; a step of a thread leaves the pending queue of every
other lane unchanged, so a general worker never changes a lane `T` other
than the general one, and the worker of such a `T` never changes the general
lane; the same frame holds for every iteration of `workerThread(type)` on
every pool. -/
theorem worker_touches_only_its_lane (n : Nat) (acts : List (Action ε α))
    (ls : List (Label ε α)) (s : ModernThreadPool ε α)
    (hreach : run acts (construct n) = some (ls, s))
    (id : ThreadId) (l : Label ε α) (s1 : ModernThreadPool ε α)
    (hstep : step id s = some (l, s1)) :
    (∃ th, thread? s id = some th ∧
      th.type = id.lane ∧ ∀ L, L ≠ id.lane → queueOf s1 L = queueOf s L) ∧
    (∀ i T, id = .general i → T ≠ GENERAL_TASK → queueOf s1 T = queueOf s T) ∧
    (∀ T, id = .dedicated T → T ≠ GENERAL_TASK →
      queueOf s1 GENERAL_TASK = queueOf s GENERAL_TASK) ∧
    (∀ (type : TaskType) (s0 s2 : ModernThreadPool ε α),
      (workerThread type s0).pool? = some s2 → ∀ L, L ≠ type → queueOf s2 L = queueOf s0 L) := by
  have hb : Bound s := run_bound acts hreach (construct_bound n)
  obtain ⟨th, hth, _, _⟩ := step_spec hstep
  have hty : th.type = id.lane := by
    cases id with
    | general i =>
      have hth' : s.generalWorkers[i]? = some th := hth
      exact hb.1 th (List.getElem?_mem hth')
    | dedicated T => exact hb.2.1 (T, th) (find_some_mem hth)
  refine ⟨⟨th, hth, hty, fun L hL => step_frame hstep hth L (by rw [hty]; exact hL)⟩, ?_, ?_,
    fun type s0 s2 h L hL => workerThread_frame type s0 s2 h L hL⟩
  · intro i T hid hT
    subst hid
    exact step_frame hstep hth T (by rw [hty]; exact hT)
  · intro T hid hT
    subst hid
    exact step_frame hstep hth GENERAL_TASK (by rw [hty]; exact fun e => hT e.symm)

theorem worker_touches_only_its_lane_witness :
    run mainActions (construct 2) = some mainRun ∧
    step (.dedicated "logger") mainRun.2 = some loggerStep ∧
    queueOf loggerStep.2 GENERAL_TASK = queueOf mainRun.2 GENERAL_TASK ∧
    (queueOf mainRun.2 "logger").length = 1 ∧ (queueOf loggerStep.2 "logger").length = 0 :=
  ⟨rfl, rfl,
    (worker_touches_only_its_lane 2 mainActions mainRun.1 mainRun.2 rfl
      (.dedicated "logger") loggerStep.1 loggerStep.2 rfl).2.2.1 "logger" rfl (by decide),
    by decide, by decide⟩

/-- C4: `addDedicatedThread` is idempotent.  On every pool a second call
with the same type changes nothing; after any sequence of actions on a fresh
pool the number of dedicated threads is the number of distinct types passed
to `addDedicatedThread`, exactly one dedicated worker is bound to each of
them, and a further call with one of them leaves the pool as it is. -/
theorem addDedicatedThread_idempotent (n : Nat) (acts : List (Action ε α))
    (ls : List (Label ε α)) (s : ModernThreadPool ε α)
    (hreach : run acts (construct n) = some (ls, s)) :
    (∀ (s0 : ModernThreadPool ε α) (T : TaskType),
      addDedicatedThread T (addDedicatedThread T s0) = addDedicatedThread T s0) ∧
    getDedicatedThreadCount s = (dedicatedTypes acts).dedup.length ∧
    (∀ T ∈ dedicatedTypes acts,
      (s.dedicatedWorkers.map (fun e => e.2.type)).count T = 1 ∧
      ∃ fin, find s.dedicatedWorkers T = some ⟨T, fin⟩) ∧
    (∀ T ∈ dedicatedTypes acts, addDedicatedThread T s = s) := by
  have hb : Bound s := run_bound acts hreach (construct_bound n)
  have hkeys : ∀ T, T ∈ s.dedicatedWorkers.map Prod.fst ↔ T ∈ dedicatedTypes acts := by
    intro T
    rw [run_keys acts hreach T]
    simp [construct]
  have htypes : s.dedicatedWorkers.map (fun e => e.2.type) = s.dedicatedWorkers.map Prod.fst :=
    List.map_congr_left (fun e he => hb.2.1 e he)
  refine ⟨fun s0 T => addDedicatedThread_twice T s0, ?_, fun T hT => ?_, fun T hT => ?_⟩
  · unfold getDedicatedThreadCount
    rw [← List.length_map s.dedicatedWorkers Prod.fst, ← List.toFinset_card_of_nodup hb.2.2,
      ← List.card_toFinset]
    congr 1
    ext T
    simp only [List.mem_toFinset]
    exact hkeys T
  · have hk := (hkeys T).2 hT
    have hcount : (s.dedicatedWorkers.map (fun e => e.2.type)).count T = 1 := by
      rw [htypes]
      exact List.count_eq_one_of_mem hb.2.2 hk
    cases hf : find s.dedicatedWorkers T with
    | none => exact absurd hk ((find_eq_none_iff _ _).1 hf)
    | some th =>
      have hty := hb.2.1 (T, th) (find_some_mem hf)
      obtain ⟨ty, fin⟩ := th
      simp only at hty
      subst hty
      exact ⟨hcount, fin, rfl⟩
  · have hk := (hkeys T).2 hT
    unfold addDedicatedThread
    cases hf : find s.dedicatedWorkers T with
    | none => exact absurd hk ((find_eq_none_iff _ _).1 hf)
    | some th => simp

theorem addDedicatedThread_idempotent_witness :
    run mainActions (construct 2) = some mainRun ∧
    dedicatedTypes mainActions = ["logger", "io", "network", "logger"] ∧
    getDedicatedThreadCount mainRun.2 = 3 :=
  ⟨rfl, rfl, (addDedicatedThread_idempotent 2 mainActions mainRun.1 mainRun.2 rfl).2.1⟩

/-- C6 (the claim fails): `addDedicatedThread("general")` on a fresh pool
registers a dedicated worker under "general", bound to the general lane. -/
theorem general_gets_dedicated_worker :
    find (addDedicatedThread GENERAL_TASK (construct 2 : ModernThreadPool String Int)).dedicatedWorkers
      GENERAL_TASK = some ⟨GENERAL_TASK, false⟩ := by
  decide

/-- C6 (amended): in every pool reachable from a fresh one, a dedicated
worker is registered under, or bound to, "general" exactly when
`addDedicatedThread("general")` was called; without such a call the general
lane is served by the general workers only. -/
theorem general_dedicated_iff_requested (n : Nat) (acts : List (Action ε α))
    (ls : List (Label ε α)) (s : ModernThreadPool ε α)
    (hreach : run acts (construct n) = some (ls, s)) :
    (∃ e ∈ s.dedicatedWorkers, e.1 = GENERAL_TASK ∨ e.2.type = GENERAL_TASK) ↔
      GENERAL_TASK ∈ dedicatedTypes acts := by
  have hb : Bound s := run_bound acts hreach (construct_bound n)
  have hkeys : GENERAL_TASK ∈ s.dedicatedWorkers.map Prod.fst ↔
      GENERAL_TASK ∈ dedicatedTypes acts := by
    rw [run_keys acts hreach GENERAL_TASK]
    simp [construct]
  rw [← hkeys]
  constructor
  · rintro ⟨e, he, h1 | h2⟩
    · exact List.mem_map.2 ⟨e, he, h1⟩
    · exact List.mem_map.2 ⟨e, he, (hb.2.1 e he).symm.trans h2⟩
  · intro h
    obtain ⟨e, he, h1⟩ := List.mem_map.1 h
    exact ⟨e, he, Or.inl h1⟩

theorem general_dedicated_iff_requested_witness :
    run mainActions (construct 2) = some mainRun ∧
    ¬ ∃ e ∈ mainRun.2.dedicatedWorkers, e.1 = GENERAL_TASK ∨ e.2.type = GENERAL_TASK :=
  ⟨rfl, fun h =>
    absurd ((general_dedicated_iff_requested 2 mainActions mainRun.1 mainRun.2 rfl).1 h)
      (by decide)⟩


/-- C7 (the claim fails): with the stop flag set, `submit` still pushes the
task on its lane and `addDedicatedThread` still registers a worker. -/
theorem stopped_pool_still_accepts :
    (queueOf (submit "x" (priorityTask 1) ()
        (setStop (construct 2 : ModernThreadPool String Int))).2 "x").length = 1 ∧
    (queueOf (setStop (construct 2 : ModernThreadPool String Int)) "x").length = 0 ∧
    getDedicatedThreadCount
      (addDedicatedThread "x" (setStop (construct 2 : ModernThreadPool String Int))) = 1 ∧
    getDedicatedThreadCount (setStop (construct 2 : ModernThreadPool String Int)) = 0 := by
  decide

/-- C7 (amended): once the stop flag is set, `submit` and
`addDedicatedThread` do what they do on a running pool: `submit` returns the
future of a fresh shared state and appends the task at the tail of its lane,
`addDedicatedThread` registers a worker for a type that has none; neither
reads the flag, the pools they produce are those produced with the flag
clear, up to the flag. -/
theorem stop_flag_not_consulted (s : ModernThreadPool ε α) (hs : s.stop = true)
    (type T : TaskType) (f : β → Except ε α) (args : β) :
    (submit type f args s).1 = s.futures.length ∧
    queueOf (submit type f args s).2 type =
      queueOf s type ++ [⟨s.futures.length, fun _ => f args⟩] ∧
    (find s.dedicatedWorkers T = none →
      (addDedicatedThread T s).dedicatedWorkers = s.dedicatedWorkers ++ [(T, ⟨T, false⟩)]) ∧
    submit type f args s =
      ((submit type f args { s with stop := false }).1,
        { (submit type f args { s with stop := false }).2 with stop := true }) ∧
    addDedicatedThread T s = { addDedicatedThread T { s with stop := false } with stop := true } := by
  refine ⟨rfl, ?_, fun h => ?_, ?_, ?_⟩
  · rw [queueOf_submit, if_pos rfl]
  · unfold addDedicatedThread
    simp [h]
  · cases s
    simp only at hs
    subst hs
    rfl
  · cases s
    simp only at hs
    subst hs
    unfold addDedicatedThread
    simp only
    split <;> rfl

theorem stop_flag_not_consulted_witness :
    (setStop (construct 2 : ModernThreadPool String Int)).stop = true ∧
    queueOf (submit "x" (priorityTask 1) ()
        (setStop (construct 2 : ModernThreadPool String Int))).2 "x" =
      queueOf (setStop (construct 2 : ModernThreadPool String Int)) "x" ++
        [⟨(setStop (construct 2 : ModernThreadPool String Int)).futures.length,
          fun _ => priorityTask 1 ()⟩] ∧
    find (setStop (construct 2 : ModernThreadPool String Int)).dedicatedWorkers "x" = none ∧
    (addDedicatedThread "x" (setStop (construct 2 : ModernThreadPool String Int))).dedicatedWorkers =
      (setStop (construct 2 : ModernThreadPool String Int)).dedicatedWorkers ++
        [("x", ⟨"x", false⟩)] :=
  ⟨rfl, (stop_flag_not_consulted (setStop (construct 2 : ModernThreadPool String Int)) rfl
    "x" "x" (priorityTask 1) ()).2.1, rfl,
    (stop_flag_not_consulted (setStop (construct 2 : ModernThreadPool String Int)) rfl
    "x" "x" (priorityTask 1) ()).2.2.1 rfl⟩

/-- C8: the first `getInstance(n)` constructs the pool with exactly `n`
general workers, each started on the general lane; every later
`getInstance(m)` returns the pool already there, whatever `m` is; and after
any sequence of later calls (further `getInstance(m)`, operations on the
pool, iterations of its threads, the start of the destructor)
`getGeneralThreadCount()` is still `n`, every general worker still bound to
the general lane. -/
theorem getInstance_first_call_wins (n : Nat) (cs : List (Call ε α))
    (inst' : Option (ModernThreadPool ε α))
    (h : calls cs (getInstance n (none : Option (ModernThreadPool ε α))).2 = some inst') :
    (getInstance n (none : Option (ModernThreadPool ε α))).1.generalWorkers =
      List.replicate n ⟨GENERAL_TASK, false⟩ ∧
    getGeneralThreadCount (getInstance n (none : Option (ModernThreadPool ε α))).1 = n ∧
    (∀ (m : Nat) (p : ModernThreadPool ε α), getInstance m (some p) = (p, some p)) ∧
    ∃ p, inst' = some p ∧ getGeneralThreadCount p = n ∧
      (∀ m, (getInstance m inst').1 = p) ∧
      ∀ th ∈ p.generalWorkers, th.type = GENERAL_TASK := by
  refine ⟨rfl, ?_, fun m p => rfl, ?_⟩
  · simp [getInstance, getGeneralThreadCount, construct]
  · obtain ⟨p, hp, hg⟩ := calls_general cs (construct n) inst' h
    obtain ⟨h1, h2⟩ := types_general hg
    refine ⟨p, hp, h1, fun m => ?_, h2⟩
    rw [hp]
    rfl

theorem getInstance_first_call_wins_witness :
    calls laterCalls (getInstance 2 none).2 = some laterInstance ∧
    laterInstance.map getGeneralThreadCount = some 2 := by
  refine ⟨rfl, ?_⟩
  obtain ⟨p, hp, h1, _⟩ := (getInstance_first_call_wins 2 laterCalls laterInstance rfl).2.2.2
  rw [hp, Option.map_some', h1]


/-- C2 (the claim fails): a pool with two general workers and three tasks
pending in lane "x", which has no worker.  The destructor returns, every
thread joined, with the three tasks still pending, none dequeued and none
of their futures ready. -/
theorem shutdown_leaves_unserved_lane :
    (queueOf unservedLane "x").length = 3 ∧
    (destruct 1 unservedLane).map
      (fun r => (allFinished r.2, (queueOf r.2 "x").length, (dequeued "x" r.1).length,
        r.2.futures.map Option.isSome)) = some (true, 3, 0, [false, false, false]) := by
  decide

/-- C2 (amended): shutdown drains every lane that has a worker.  From a
pool whose destructor begins (`stop` set), along every interleaving that
ends with every thread returned, each thread that was still in its loop has
seen every task pending in its lane at that moment dequeued and run, in
queue order, and the futures of those tasks are ready; when nothing is
pushed on the lane meanwhile the lane ends empty.  A thread leaves its loop
only on an iteration that finds `stop` set and its lane empty.  With enough
fuel the destructor does return, every thread joined, by such an
interleaving.  A lane to which no thread is bound keeps its pending tasks:
the threads of the pool dequeue nothing from it. -/
theorem shutdown_drains_served_lanes (s : ModernThreadPool ε α) (hb : Bound s)
    (hc : Consistent s) :
    (∀ acts ls s' id th, run acts (setStop s) = some (ls, s') → allFinished s' = true →
      thread? s id = some th → th.finished = false →
        queueOf s th.type <+: dequeued th.type ls ∧
        (∀ t ∈ queueOf s th.type, get s' t.shared = some (t.fn ())) ∧
        (pushed th.type ls = [] →
          dequeued th.type ls = queueOf s th.type ∧ queueOf s' th.type = [])) ∧
    (∀ id id' ty (s0 s1 : ModernThreadPool ε α), step id s0 = some (Label.returned id' ty, s1) →
      s0.stop = true ∧ queueOf s0 ty = []) ∧
    (∀ fuel, (∀ L, (queueOf s L).length < fuel) →
      ∃ ls s', destruct fuel s = some (ls, s') ∧ allFinished s' = true ∧
        ∃ acts, (∀ a ∈ acts, ∃ id, a = Action.schedule id) ∧
          run acts (setStop s) = some (ls, s')) ∧
    (∀ acts ls s' L, (∀ a ∈ acts, ∃ id, a = Action.schedule id) →
      run acts (setStop s) = some (ls, s') →
      (∀ id th, thread? s id = some th → th.type ≠ L) →
        queueOf s' L = queueOf s L ∧ dequeued L ls = []) := by
  refine ⟨?_, fun id id' ty s0 s1 h => ⟨(step_returned_only h).1, (step_returned_only h).2.1⟩,
    fun fuel hlen => destruct_total fuel s hb hc hlen,
    fun acts ls s' L honly hrun hno =>
      (unserved acts L honly hrun (fun id th hth => hno id th (by cases id <;> exact hth)) :
        queueOf s' L = queueOf (setStop s) L ∧ dequeued L ls = [])⟩
  intro acts ls s' id th hrun hall hth hfin
  have hth0 : thread? (setStop s) id = some th := by cases id <;> exact hth
  obtain ⟨th', hth', _, _⟩ := run_thread acts hrun hth0
  have hpre0 : queueOf (setStop s) th.type <+: dequeued th.type ls :=
    drained acts hrun hth0 hfin hth' (allFinished_thread hall hth')
  have hpre : queueOf s th.type <+: dequeued th.type ls := hpre0
  refine ⟨hpre, fun t ht => ?_, fun hp => ?_⟩
  · obtain ⟨id1, hid1⟩ := mem_dequeued ls (hpre.subset ht)
    refine owner_run acts hrun (hc.1 th.type t ht) (fun L t' ht' he => ?_)
      ⟨id1, th.type, t, hid1, rfl⟩
    rw [consistent_unique hc ht ht' he]
  · have hq := run_queue acts hrun th.type
    rw [hp, List.append_nil] at hq
    obtain ⟨r, hr⟩ := hpre
    have hq' : queueOf (setStop s) th.type = queueOf s th.type := rfl
    rw [hq', ← hr, List.append_assoc] at hq
    have hnil := List.append_cancel_left (hq.trans (List.append_nil _).symm)
    obtain ⟨h1, h2⟩ := List.append_eq_nil.1 hnil
    rw [← hr, h1, List.append_nil]
    exact ⟨rfl, h2⟩

theorem shutdown_drains_served_lanes_witness :
    Bound servedLane ∧ Consistent servedLane ∧
    destruct 4 servedLane = some servedRun ∧
    run (List.replicate 4 (Action.schedule (ThreadId.general 0))) (setStop servedLane) =
      some servedRun ∧
    allFinished servedRun.2 = true ∧
    thread? servedLane (ThreadId.general 0) = some ⟨GENERAL_TASK, false⟩ ∧
    queueOf servedLane GENERAL_TASK <+: dequeued GENERAL_TASK servedRun.1 ∧
    (queueOf servedLane GENERAL_TASK).length = 3 := by
  have hrun : run [Action.submit GENERAL_TASK (priorityTask 1),
      Action.submit GENERAL_TASK (priorityTask 5), Action.submit GENERAL_TASK (priorityTask 1)]
      (construct 1) = some (_, servedLane) := rfl
  have hb : Bound servedLane := run_bound _ hrun (construct_bound 1)
  have hc : Consistent servedLane := consistent_run _ hrun (consistent_construct 1)
  exact ⟨hb, hc, rfl, rfl, rfl, rfl,
    ((shutdown_drains_served_lanes servedLane hb hc).1
      (List.replicate 4 (Action.schedule (ThreadId.general 0))) servedRun.1 servedRun.2
      (ThreadId.general 0) ⟨GENERAL_TASK, false⟩ rfl rfl rfl rfl).1, by decide⟩

/-- C3: the future returned by `submit` delivers the outcome of the
callable.  On a consistent pool, after any interleaving in which a worker
has run the task pushed by `submit(type, f, args)`, `get()` on the returned
future yields `f args`: the value when `f` returns, the error when `f`
throws.  The future is empty right after `submit`.  In every pool reached
after the submission no iteration of a worker lets an exception escape: the
task body completes normally and the error reaches the future only. -/
theorem submit_then_get (s : ModernThreadPool ε α) (hc : Consistent s) (type : TaskType)
    (f : β → Except ε α) (args : β) (acts : List (Action ε α)) (ls : List (Label ε α))
    (s' : ModernThreadPool ε α) (hrun : run acts (submit type f args s).2 = some (ls, s'))
    (hran : ∃ id ty t, Label.ran id ty t ∈ ls ∧ t.shared = (submit type f args s).1) :
    get s' (submit type f args s).1 = some (f args) ∧
    (∀ v, f args = .ok v → get s' (submit type f args s).1 = some (.ok v)) ∧
    (∀ e, f args = .error e → get s' (submit type f args s).1 = some (.error e)) ∧
    get (submit type f args s).2 (submit type f args s).1 = none ∧
    (∀ acts1 ls1 s1 ty, run acts1 (submit type f args s).2 = some (ls1, s1) →
      workerThread ty s1 ≠ Iteration.terminate) := by
  have hlt : ∀ L t, t ∈ queueOf s L → t.shared < s.futures.length := by
    intro L t ht
    have := hc.1 L t ht
    by_contra hge
    rw [List.getElem?_eq_none (Nat.le_of_not_lt hge)] at this
    cases this
  have he : (submit type f args s).2.futures[(submit type f args s).1]? = some none := by
    show (s.futures ++ [none])[s.futures.length]? = some none
    simp
  have ho : ∀ L t, t ∈ queueOf (submit type f args s).2 L →
      t.shared = (submit type f args s).1 → t.fn () = f args := by
    intro L t ht hsh
    have hsh' : t.shared = s.futures.length := hsh
    rw [queueOf_submit] at ht
    by_cases hL : L = type
    · rw [if_pos hL, List.mem_append, List.mem_singleton] at ht
      rcases ht with hold | rfl
      · have := hlt type t hold
        omega
      · rfl
    · rw [if_neg hL] at ht
      have := hlt L t ht
      omega
  have hget := owner_run acts hrun he ho hran
  refine ⟨hget, fun v hv => by rw [hget, hv], fun e hv => by rw [hget, hv], ?_, ?_⟩
  · unfold get
    rw [he]
    rfl
  · intro acts1 ls1 s1 ty h1
    exact workerThread_ne_terminate (consistent_run acts1 h1 (consistent_submit hc type f args)) ty

theorem submit_then_get_witness :
    Consistent (construct 1 : ModernThreadPool String Int) ∧
    run [Action.schedule (ThreadId.general 0)]
      (submit GENERAL_TASK failingTask () (construct 1)).2 = some failingRun ∧
    Label.ran (ThreadId.general 0) GENERAL_TASK ⟨0, failingTask⟩ ∈ failingRun.1 ∧
    get failingRun.2 0 = some (.error "boom") :=
  ⟨consistent_construct 1, rfl, List.mem_cons_self _ _,
    (submit_then_get (construct 1) (consistent_construct 1) GENERAL_TASK failingTask ()
      [Action.schedule (ThreadId.general 0)] failingRun.1 failingRun.2 rfl
      ⟨ThreadId.general 0, GENERAL_TASK, ⟨0, failingTask⟩, List.mem_cons_self _ _, rfl⟩).1⟩


/-! ## The lock discipline -/

theorem respects_append (ok : List TaskType → Event → Bool) :
    ∀ (es1 es2 : List Event) (hs : List TaskType),
      respects ok hs (es1 ++ es2) =
        (respects ok hs es1 && respects ok (es1.foldl held hs) es2)
  | [], es2, hs => by simp [respects]
  | e :: es1, es2, hs => by
    show (ok hs e && respects ok (held hs e) (es1 ++ es2)) = _
    rw [respects_append ok es1 es2]
    simp only [respects, List.foldl_cons, Bool.and_assoc]

theorem predicate_guarded (type : TaskType) (stopped : Bool) :
    respects queueGuarded [type] (predicateEvents type stopped) = true ∧
      (predicateEvents type stopped).foldl held [type] = [type] := by
  cases stopped <;> simp [predicateEvents, respects, queueGuarded, held]

theorem wait_guarded (type : TaskType) (stopped : Bool) :
    ∀ blocked : Nat, respects queueGuarded [type] (waitEvents type blocked stopped) = true ∧
      (waitEvents type blocked stopped).foldl held [type] = [type]
  | 0 => predicate_guarded type stopped
  | blocked + 1 => by
    obtain ⟨h1, h2⟩ := predicate_guarded type false
    obtain ⟨h3, h4⟩ := wait_guarded type stopped blocked
    have h5 : List.foldl held [type] [Event.unlock type, Event.lock type] = [type] := by
      simp [held]
    have h6 : respects queueGuarded [type] [Event.unlock type, Event.lock type] = true := by
      simp [respects, queueGuarded]
    show respects queueGuarded [type]
        (predicateEvents type false ++ [Event.unlock type, Event.lock type] ++
          waitEvents type blocked stopped) = true ∧
      (predicateEvents type false ++ [Event.unlock type, Event.lock type] ++
          waitEvents type blocked stopped).foldl held [type] = [type]
    simp only [respects_append, List.foldl_append, h1, h2, h5, h6, h3, h4, Bool.and_self,
      and_self]

theorem predicate_condition_guarded (type : TaskType) (stopped : Bool) :
    respects conditionGuarded [type] (predicateEvents type stopped) = true := by
  cases stopped <;> simp [predicateEvents, respects, conditionGuarded, queueGuarded, held]

theorem wait_condition_guarded (type : TaskType) (stopped : Bool) :
    ∀ blocked : Nat, respects conditionGuarded [type] (waitEvents type blocked stopped) = true
  | 0 => predicate_condition_guarded type stopped
  | blocked + 1 => by
    have h1 := predicate_condition_guarded type false
    have h2 := (predicate_guarded type false).2
    have h3 := wait_condition_guarded type stopped blocked
    have h5 : List.foldl held [type] [Event.unlock type, Event.lock type] = [type] := by
      simp [held]
    have h6 : respects conditionGuarded [type] [Event.unlock type, Event.lock type] = true := by
      simp [respects, conditionGuarded, queueGuarded]
    show respects conditionGuarded [type]
        (predicateEvents type false ++ [Event.unlock type, Event.lock type] ++
          waitEvents type blocked stopped) = true
    simp only [respects_append, List.foldl_append, h1, h2, h5, h6, h3, Bool.and_self]

/-- C9 (the claim fails): the first access of `submit("x", ...)` is the
lookup `queueMutexes["x"]`, made before the mutex it yields is acquired, and
its last lookup `conditions["x"]` comes after the mutex is released; the
discipline that puts these lookups under the mutex of the lane is broken. -/
theorem lookups_outside_lane_mutex :
    respects laneGuarded [] (submitEvents "x") = false ∧
    respects laneGuarded [] [Event.lookupMutex "x"] = false ∧
    respects laneGuarded [] (workerEvents "x" 0 false false false) = false := by
  decide

/-- C9 (amended): in `submit` and in every iteration of `workerThread`,
whatever the wait observes, the pending queue of the lane is looked up
(`taskQueues[type]`, which creates it on first use), read and written only
while the thread holds the mutex of that lane, the task body runs only after
the thread released it, and no mutex is held at the end.  The lookups
`queueMutexes[type]` and, in `submit`, `conditions[type]` are made without
the mutex, so the discipline that includes them fails for both: the mutex is
looked up before it is locked, `submit` looks the condition up after the
unlock, while the worker looks the condition up under the mutex. -/
theorem queue_accesses_hold_lane_mutex (type : TaskType) (blocked : Nat)
    (stopped1 stopped2 empty : Bool) :
    respects queueGuarded [] (submitEvents type) = true ∧
    respects queueGuarded [] (workerEvents type blocked stopped1 stopped2 empty) = true ∧
    (submitEvents type).foldl held [] = [] ∧
    (workerEvents type blocked stopped1 stopped2 empty).foldl held [] = [] ∧
    respects laneGuarded [] (submitEvents type) = false ∧
    respects laneGuarded [] (workerEvents type blocked stopped1 stopped2 empty) = false ∧
    (submitEvents type).drop 4 =
      [Event.unlock type, Event.lookupCondition type, Event.notify type] ∧
    respects conditionGuarded [] (submitEvents type) = false ∧
    respects conditionGuarded [] (workerEvents type blocked stopped1 stopped2 empty) = true ∧
    (workerEvents type blocked stopped1 stopped2 empty).take 2 =
      [Event.lookupMutex type, Event.lock type] := by
  obtain ⟨h1, h2⟩ := wait_guarded type stopped1 blocked
  have h3 := wait_condition_guarded type stopped1 blocked
  have h0 : List.foldl held []
      [Event.lookupMutex type, Event.lock type, Event.lookupCondition type] = [type] := by
    simp [held]
  refine ⟨?_, ?_, ?_, ?_, ?_, ?_, rfl, ?_, ?_, rfl⟩
  · simp [submitEvents, respects, queueGuarded, held]
  · unfold workerEvents
    simp only [respects_append, List.foldl_append, h0, h1, h2]
    cases stopped2 <;> cases empty <;> simp [respects, queueGuarded, held]
  · simp [submitEvents, held]
  · unfold workerEvents
    simp only [List.foldl_append, h0, h2]
    cases stopped2 <;> cases empty <;> simp [held]
  · simp [submitEvents, respects, laneGuarded]
  · simp [workerEvents, respects, laneGuarded]
  · simp [submitEvents, respects, conditionGuarded, queueGuarded, held]
  · unfold workerEvents
    simp only [respects_append, List.foldl_append, h0, h2, h3]
    cases stopped2 <;> cases empty <;> simp [respects, conditionGuarded, queueGuarded, held]

end ModernThreadPool
